import Mathlib

/-!
Verification of the seam-carving core of `croppy` (src/index.js).

The JavaScript source is shallowly embedded: image buffers are `List ℕ`
(8-bit samples; the spec's energy grids carry non-negative numeric scores, so
grid cells are `ℕ`), the two-dimensional `distances` / `visited` / `previous`
arrays of `pathfind` are functions on coordinates (`none` models the
`Infinity` sentinel and the null predecessor), and the unbounded `while`
loop of `pathfind` and the carve loop of `carve` are modelled with an
explicit fuel that is provably sufficient.  The stable in-place
`Array.prototype.sort` on the queue is modelled with a stable sort by
ascending `distance`; exceptions (reading `.length` of `undefined`) and the
frontier running dry both surface as `none`.  The external `sobelFilter` is
an injected function argument, as the spec directs for the gradient filter.
-/

namespace Croppy

/-- Image model: flat row-major RGBA sample buffer plus dimensions,
mirroring the `IJS.Image` fields (`data`, `width`, `height`) that
src/index.js reads and writes. -/
structure Image where
  data : List ℕ
  width : ℕ
  height : ℕ
deriving DecidableEq

/-- Grid cell coordinate: (row, column). -/
abbrev Cell := ℕ × ℕ

/-- Column count of a grid, as src/index.js reads it: `matrix[0].length`. -/
def colsOf (m : List (List ℕ)) : ℕ := (m.headD []).length

/-- Energy value at a cell of the grid (`matrix[row][col]`).  Out-of-range
reads default to 0; every theorem below restricts to rectangular grids and
in-range accesses, where this agrees with the JavaScript semantics. -/
def energyAt (m : List (List ℕ)) (p : Cell) : ℕ := (m.getD p.1 []).getD p.2 0

/-- Embedding of `getEnergyMatrix` (src/index.js lines 55-70): for every
pixel, sum the first three channel samples of the gradient-response buffer
at offset `(y*width + x)*4`; the alpha sample at offset `+3` is ignored.
The sobel output buffer is passed in explicitly (the filter is external). -/
def getEnergyMatrix (sobelData : List ℕ) (width height : ℕ) : List (List ℕ) :=
  (List.range height).map (fun y =>
    (List.range width).map (fun x =>
      sobelData.getD ((y * width + x) * 4) 0
        + sobelData.getD ((y * width + x) * 4 + 1) 0
        + sobelData.getD ((y * width + x) * 4 + 2) 0))

/-- Queue element of `pathfind`: the `{row, col, distance}` record. -/
structure Entry where
  row : ℕ
  col : ℕ
  distance : ℕ
deriving DecidableEq

/-- Queue order used by `queue.sort((a, b) => a.distance - b.distance)`:
ascending accumulated distance. -/
def entryLE (a b : Entry) : Prop := a.distance ≤ b.distance

instance : DecidableRel entryLE := fun a b => Nat.decLe a.distance b.distance

instance : IsTotal Entry entryLE := ⟨fun a b => Nat.le_total a.distance b.distance⟩

instance : IsTrans Entry entryLE := ⟨fun _ _ _ h h2 => Nat.le_trans h h2⟩

/-- Search state of `pathfind`: the `distances`, `visited` and `previous`
per-cell arrays plus the frontier queue.  `distances p = none` models the
`Infinity` initialisation, `previous p = none` models the null back-pointer. -/
structure PFState where
  distances : Cell → Option ℕ
  visited : Cell → Bool
  previous : Cell → Option Cell
  queue : List Entry

/-- Pointwise array update (`arr[p] = v` on the modelled 2-D arrays). -/
def updF {α : Type} (f : Cell → α) (p : Cell) (v : α) : Cell → α :=
  fun q => if q = p then v else f q

/-- Embedding of the relaxation of one neighbor (the body of the
`for (let j = -1; j <= 1; j++)` loop of src/index.js lines 114-127 for a
single value of `j`): move down one row and sideways by `j`, skip when out
of bounds, and on a strict distance improvement record distance and
predecessor and push a fresh queue entry. -/
def relaxOne (m : List (List ℕ)) (rows cols : ℕ) (row col dist : ℕ)
    (st : PFState) (j : ℤ) : PFState :=
  let newRow := row + 1
  let c : ℤ := (col : ℤ) + j
  if newRow < rows ∧ 0 ≤ c ∧ c < (cols : ℤ) then
    let newCol := c.toNat
    let newDistance := dist + energyAt m (newRow, newCol)
    let improves := match st.distances (newRow, newCol) with
      | none => true
      | some d => decide (newDistance < d)
    if improves then
      { distances := updF st.distances (newRow, newCol) (some newDistance)
        visited := st.visited
        previous := updF st.previous (newRow, newCol) (some (row, col))
        queue := st.queue ++ [⟨newRow, newCol, newDistance⟩] }
    else st
  else st

/-- Embedding of the path reconstruction of src/index.js lines 104-111:
walk `previous` links, prepending each cell, until a null link.  The
JavaScript loop is unbounded; the fuel passed by `pathfindLoop` (the row of
the popped cell) is provably sufficient because each link moves up one row. -/
def traceback (previous : Cell → Option Cell) : ℕ → Cell → List Cell → List Cell
  | 0, cell, acc => cell :: acc
  | fuel + 1, cell, acc =>
    match previous cell with
    | none => cell :: acc
    | some p => traceback previous fuel p (cell :: acc)

/-- Embedding of the `while (queue.length)` loop of src/index.js lines
95-128: sort the queue by distance (stable), shift the head, skip it if
already visited, return the reconstructed path when it lies in the last
row, and otherwise relax the down-left then the down-right neighbor.
`none` models the JavaScript `undefined` returned when the queue empties. -/
def pathfindLoop (m : List (List ℕ)) (rows cols : ℕ) :
    ℕ → PFState → Option (List Cell)
  | 0, _ => none
  | fuel + 1, st =>
    match List.insertionSort entryLE st.queue with
    | [] => none
    | e :: rest =>
      if st.visited (e.row, e.col) then
        pathfindLoop m rows cols fuel { st with queue := rest }
      else
        let st1 : PFState :=
          { st with queue := rest, visited := updF st.visited (e.row, e.col) true }
        if e.row = rows - 1 then
          some (traceback st1.previous e.row (e.row, e.col) [])
        else
          pathfindLoop m rows cols fuel
            (relaxOne m rows cols e.row e.col e.distance
              (relaxOne m rows cols e.row e.col e.distance st1 (-1)) 1)

/-- Initial search state of `pathfind` (src/index.js lines 84-93): all
distances infinite except the start cell `(0, floor(cols/2))`, which gets
its own energy value; nothing visited; no predecessors; the queue holds the
single start entry. -/
def pathfindInit (m : List (List ℕ)) : PFState :=
  let startCol := colsOf m / 2
  let e0 := energyAt m (0, startCol)
  { distances := updF (fun _ => none) (0, startCol) (some e0)
    visited := fun _ => false
    previous := fun _ => none
    queue := [⟨0, startCol, e0⟩] }

/-- Embedding of `pathfind` (src/index.js lines 78-129).  An empty matrix
makes the JavaScript throw on `matrix[0].length`, modelled as `none`.  The
fuel `2 + 2*rows*cols` dominates the loop's iteration count: every
iteration removes a queue entry, at most `1 + 2*rows*cols` entries are ever
pushed (one initial entry, at most two per first visit of a cell). -/
def pathfind (m : List (List ℕ)) : Option (List Cell) :=
  if m.length = 0 then none
  else pathfindLoop m m.length (colsOf m) (2 + 2 * (m.length * colsOf m)) (pathfindInit m)

/-- Embedding of one `splice(offset, 4)` call on the copied buffer. -/
def splice4 (l : List ℕ) (o : ℕ) : List ℕ := l.take o ++ l.drop (o + 4)

/-- Embedding of the carve loop of src/index.js lines 33-40: iterate the
seam from its last row down to row 0, splicing out the 4-sample run at flat
offset `row*width*4 + col*4` computed against the pre-carve width. -/
def carveLoopData (width : ℕ) (path : List Cell) (data : List ℕ) : List ℕ :=
  path.reverse.foldl (fun d coords => splice4 d (coords.1 * width * 4 + coords.2 * 4)) data

/-- Embedding of `carveSeam` (src/index.js lines 28-47): build the energy
matrix from the externally produced sobel buffer, find the path, splice one
pixel per seam row out of a copy of the buffer, and return the image with
decremented width and unchanged height.  When `pathfind` yields no path the
JavaScript throws on `path.length` before touching the image, modelled as
`none`. -/
def carveSeam (sobel : Image → List ℕ) (image : Image) : Option Image :=
  let energyMap := getEnergyMatrix (sobel image) image.width image.height
  match pathfind energyMap with
  | none => none
  | some path =>
    some { data := carveLoopData image.width path image.data
           width := image.width - 1
           height := image.height }

/-- Embedding of the carve loop of src/index.js lines 13-18 (rendering
calls dropped; they do not touch the image data).  `carveSeam` mutates and
returns the very object the loop bound reads (`result` aliases `image`), so
the loop condition `i < image.width*(amount/100)` is re-evaluated against
the shrinking current width; the state therefore carries a single image.
The returned counter is the number of `carveSeam` invocations performed.
`amount` is exact rational arithmetic in place of JavaScript floats. -/
def carveAux (sobel : Image → List ℕ) (amount : ℚ) :
    ℕ → ℕ → Image → Option (Image × ℕ)
  | 0, _, _ => none
  | fuel + 1, i, img =>
    if (i : ℚ) < (img.width : ℚ) * (amount / 100) then
      match carveSeam sobel img with
      | none => none
      | some next => carveAux sobel amount fuel (i + 1) next
    else
      some (img, i)

/-- Embedding of `carve` (src/index.js lines 10-20), with the image load
and DOM output as parameters/results.  The fuel `width + 1` is provably
sufficient for `0 ≤ amount ≤ 100`. -/
def carve (sobel : Image → List ℕ) (amount : ℚ) (img : Image) : Option (Image × ℕ) :=
  carveAux sobel amount (img.width + 1) 0 img

/-- Adjacency of the search graph, exactly as the code explores it
(src/index.js lines 114-119): one row down, one column left or right,
inside the grid. -/
def stepOK (rows cols : ℕ) (a b : Cell) : Prop :=
  b.1 = a.1 + 1 ∧ (b.2 = a.2 + 1 ∨ a.2 = b.2 + 1) ∧ b.1 < rows ∧ b.2 < cols

/-- Top-anchored path through the grid: starts at `(0, floor(cols/2))` and
each step obeys `stepOK`. -/
def ValidPath (rows cols : ℕ) (l : List Cell) : Prop :=
  l.head? = some (0, cols / 2) ∧ l.Chain' (stepOK rows cols)

/-- Total energy of a path: the sum of the grid values at its cells. -/
def pathCost (m : List (List ℕ)) (l : List Cell) : ℕ := (l.map (energyAt m)).sum

/-- Index predicate for C2, following the spec's words: sample index `i` of
the flat buffer lies in the 4-sample run of some seam entry, i.e. in
`[row*width*4 + col*4, row*width*4 + col*4 + 4)`. -/
def seamHit (seam : List Cell) (width i : ℕ) : Bool :=
  seam.any (fun rc =>
    decide (rc.1 * width * 4 + rc.2 * 4 ≤ i ∧ i < rc.1 * width * 4 + rc.2 * 4 + 4))

/-- Spec-side buffer surgery for C2, following the spec's words: keep, in
relative order, exactly the samples whose index satisfies `P`. -/
def keepIdx (P : ℕ → Bool) : List ℕ → List ℕ
  | [] => []
  | x :: l => if P 0 then x :: keepIdx (fun i => P (i + 1)) l else keepIdx (fun i => P (i + 1)) l

/-- Loop-exit predicate of the carve loop at counter `n`, against original
width `W`: the current width is `W - n`, so the loop stops once
`(W - n) * (amount/100) ≤ n`. -/
def carveCountProp (W : ℕ) (amount : ℚ) (n : ℕ) : Prop :=
  ((W - n : ℕ) : ℚ) * (amount / 100) ≤ (n : ℚ)

instance carveCountPropDec (W : ℕ) (amount : ℚ) : DecidablePred (carveCountProp W amount) :=
  fun n => inferInstanceAs (Decidable (_ ≤ _))

lemma carveCountProp_exists (W : ℕ) (amount : ℚ) : ∃ n, carveCountProp W amount n :=
  ⟨W, by simp [carveCountProp]⟩

/-- Number of iterations the carve loop actually performs (for a
well-formed run): the least counter value at which the loop condition
fails. -/
def carveSpecCount (W : ℕ) (amount : ℚ) : ℕ := Nat.find (carveCountProp_exists W amount)


/-- Loop invariant for the Dijkstra search of `pathfind`. -/
structure Inv (m : List (List ℕ)) (rows cols : ℕ) (st : PFState) : Prop where
  achieve : ∀ p d, st.distances p = some d →
    ∃ l, ValidPath rows cols l ∧ l.getLast? = some p ∧ pathCost m l = d
  dist_start : st.distances (0, cols / 2) = some (energyAt m (0, cols / 2))
  prev_none : ∀ p d, st.previous p = none → st.distances p = some d → p = (0, cols / 2)
  prev_some : ∀ p q, st.previous p = some q →
    q.1 + 1 = p.1 ∧ (p.2 = q.2 + 1 ∨ q.2 = p.2 + 1) ∧ p.1 < rows ∧ p.2 < cols ∧
      st.visited q = true ∧
      ∃ dq, st.distances q = some dq ∧ st.distances p = some (dq + energyAt m p)
  entry_ok : ∀ e ∈ st.queue, e.row < rows ∧ e.col < cols ∧
    ∃ d, st.distances (e.row, e.col) = some d ∧ d ≤ e.distance
  unvisited_entry : ∀ p d, st.visited p = false → st.distances p = some d →
    ∃ e ∈ st.queue, e.row = p.1 ∧ e.col = p.2 ∧ e.distance = d
  visited_le : ∀ p, st.visited p = true →
    ∃ d, st.distances p = some d ∧ ∀ e ∈ st.queue, d ≤ e.distance
  visited_ok : ∀ p, st.visited p = true → p.1 < rows ∧ p.2 < cols ∧ p.1 ≠ rows - 1
  visited_relaxed : ∀ p c2, st.visited p = true → (c2 = p.2 + 1 ∨ p.2 = c2 + 1) →
    p.1 + 1 < rows → c2 < cols →
    ∃ dp dn, st.distances p = some dp ∧ st.distances (p.1 + 1, c2) = some dn ∧
      dn ≤ dp + energyAt m (p.1 + 1, c2)
  lower : ∀ l p, ValidPath rows cols l → l.getLast? = some p → st.visited p = false →
    ∃ pre q dq, pre <+: l ∧ pre.getLast? = some q ∧ st.visited q = false ∧
      st.distances q = some dq ∧ dq ≤ pathCost m pre

/-- Number of unvisited in-bounds cells: the potential that strictly drops
at every processed pop. -/
def unvisCount (rows cols : ℕ) (st : PFState) : ℕ :=
  ((Finset.range rows ×ˢ Finset.range cols).filter (fun p => st.visited p = false)).card

/-- Loop measure: queue length plus twice the unvisited count.  Every
iteration decreases it, so the fuel `2 + 2*rows*cols` never runs out. -/
def pfMeasure (rows cols : ℕ) (st : PFState) : ℕ :=
  st.queue.length + 2 * unvisCount rows cols st

/-! ### Basic facts about the energy mapper -/

lemma getEnergyMatrix_length (s : List ℕ) (W H : ℕ) : (getEnergyMatrix s W H).length = H := by
  simp [getEnergyMatrix]

lemma getEnergyMatrix_row_length (s : List ℕ) (W H : ℕ) :
    ∀ row ∈ getEnergyMatrix s W H, row.length = W := by
  intro row hrow
  simp only [getEnergyMatrix, List.mem_map] at hrow
  obtain ⟨y, _, rfl⟩ := hrow
  simp

lemma getEnergyMatrix_entry (s : List ℕ) (W H y x : ℕ) (hy : y < H) (hx : x < W) :
    ((getEnergyMatrix s W H).getD y []).getD x 0 =
      s.getD ((y * W + x) * 4) 0 + s.getD ((y * W + x) * 4 + 1) 0
        + s.getD ((y * W + x) * 4 + 2) 0 := by
  simp [getEnergyMatrix, List.getD_eq_getElem?_getD, List.getElem?_map, List.getElem?_range, hy, hx]

lemma pathfind_one_cell (e : ℕ) : pathfind [[e]] = some [(0, 0)] := by
  simp [pathfind, pathfindInit, pathfindLoop, colsOf, List.insertionSort, List.orderedInsert,
    traceback, updF, energyAt]

lemma carveSeam_one_by_one (sobel : Image → List ℕ) (img : Image)
    (hw : img.width = 1) (hh : img.height = 1) :
    carveSeam sobel img = some ⟨img.data.drop 4, 0, 1⟩ := by
  obtain ⟨data, w, h⟩ := img
  simp only at hw hh
  subst hw hh
  have hm : getEnergyMatrix (sobel ⟨data, 1, 1⟩) 1 1 =
      [[(sobel ⟨data, 1, 1⟩).getD 0 0 + (sobel ⟨data, 1, 1⟩).getD 1 0
          + (sobel ⟨data, 1, 1⟩).getD 2 0]] := by
    simp [getEnergyMatrix, List.range_succ]
  simp [carveSeam, hm, pathfind_one_cell, carveLoopData, splice4]

/-! ### Claim C9: the energy mapper -/

/-- C9: for every gradient-response buffer of length `width*height*4`, the
energy mapper returns a grid of `height` rows by `width` columns whose cell
`(y, x)` is the exact, unclamped sum of the channel-0, channel-1 and
channel-2 samples at flat offset `(y*width + x)*4` (alpha ignored); the
final conjunct exhibits a cell value exceeding 255, so no normalisation to
a byte range happens. -/
theorem getEnergyMatrix_spec (s : List ℕ) (W H : ℕ) (hlen : s.length = W * H * 4) :
    (getEnergyMatrix s W H).length = H ∧
    (∀ row ∈ getEnergyMatrix s W H, row.length = W) ∧
    (∀ y x, y < H → x < W →
      ((getEnergyMatrix s W H).getD y []).getD x 0 =
        s.getD ((y * W + x) * 4) 0 + s.getD ((y * W + x) * 4 + 1) 0
          + s.getD ((y * W + x) * 4 + 2) 0) ∧
    255 < ((getEnergyMatrix [255, 255, 255, 0] 1 1).getD 0 []).getD 0 0 :=
  ⟨getEnergyMatrix_length s W H, getEnergyMatrix_row_length s W H,
    fun y x hy hx => getEnergyMatrix_entry s W H y x hy hx, by decide⟩

/-- Witness for C9 at a concrete 1-by-1 buffer. -/
theorem getEnergyMatrix_spec_witness :
    (getEnergyMatrix [1, 2, 3, 4] 1 1).length = 1 ∧
    (∀ row ∈ getEnergyMatrix [1, 2, 3, 4] 1 1, row.length = 1) ∧
    (∀ y x, y < 1 → x < 1 →
      ((getEnergyMatrix [1, 2, 3, 4] 1 1).getD y []).getD x 0 =
        [1, 2, 3, 4].getD ((y * 1 + x) * 4) 0 + [1, 2, 3, 4].getD ((y * 1 + x) * 4 + 1) 0
          + [1, 2, 3, 4].getD ((y * 1 + x) * 4 + 2) 0) ∧
    255 < ((getEnergyMatrix [255, 255, 255, 0] 1 1).getD 0 []).getD 0 0 :=
  getEnergyMatrix_spec [1, 2, 3, 4] 1 1 (by decide)

/-! ### Claim C10: determinism and tie-breaking of pathfind -/

/-- C10: `pathfind` is a pure function of the energy grid, so two runs on
equal grids return identical seams.  The model renders the tie rule the
claim describes: JavaScript's `Array.prototype.sort` is stable, modelled by
a stable sort by ascending distance, so equal-distance entries pop in
insertion order, and the `j = -1` iteration enqueues the down-left neighbor
before the down-right one.  The second conjunct pins the resulting
tie-break on a uniform 2-by-3 grid: both children of the start tie at
distance 2 and the earlier-enqueued down-left child wins. -/
theorem pathfind_deterministic :
    (∀ m1 m2 : List (List ℕ), m1 = m2 → pathfind m1 = pathfind m2) ∧
    pathfind [[1, 1, 1], [1, 1, 1]] = some [(0, 1), (1, 0)] :=
  ⟨fun _ _ h => h ▸ rfl, by decide⟩

/-- Witness for C10: the determinism conjunct applied at a concrete grid. -/
theorem pathfind_deterministic_witness : pathfind [[3, 1], [2, 2]] = pathfind [[3, 1], [2, 2]] :=
  pathfind_deterministic.1 [[3, 1], [2, 2]] [[3, 1], [2, 2]] rfl

/-! ### Claim C7: atomic failure of carveSeam -/

/-- C7: when the seam search yields no path, `carveSeam` fails outright and
yields no image.  In src/index.js the `undefined` returned by `pathfind`
throws a TypeError at `path.length` before `image.data` or `image.width`
are assigned (those assignments are the last two statements), so the
caller's image still holds its pre-call field values; the embedding mirrors
that ordering by producing `none` before any buffer is built. -/
theorem carveSeam_none_on_no_path (sobel : Image → List ℕ) (img : Image)
    (h : pathfind (getEnergyMatrix (sobel img) img.width img.height) = none) :
    carveSeam sobel img = none := by
  simp [carveSeam, h]

/-- Witness for C7: a 1-column 2-row image, where the diagonal-only search
strands the frontier and no path is returned. -/
theorem carveSeam_none_on_no_path_witness :
    carveSeam (fun im => im.data) ⟨List.replicate 8 0, 1, 2⟩ = none :=
  carveSeam_none_on_no_path (fun im => im.data) ⟨List.replicate 8 0, 1, 2⟩ (by decide)

/-! ### Claim C8: input is not validated -/

/-- Counterexample to C8 as stated: `carveSeam` performs no validation at
all.  A degenerate 1-by-1 image (width ≤ 1 and height ≤ 1) is not rejected:
the step runs the full pipeline and returns a width-0 image with its pixel
spliced out.  A malformed image (buffer length 8 against declared
dimensions 1-by-1, so length ≠ width*height*4) is not rejected either. -/
theorem carveSeam_no_validation_counterexample :
    carveSeam (fun im => im.data) ⟨[1, 2, 3, 4], 1, 1⟩ = some ⟨[], 0, 1⟩ ∧
    carveSeam (fun im => im.data) ⟨[1, 2, 3, 4], 1, 1⟩ ≠ none ∧
    carveSeam (fun im => im.data) ⟨[1, 2, 3, 4, 5, 6, 7, 8], 1, 1⟩ = some ⟨[5, 6, 7, 8], 0, 1⟩ := by
  refine ⟨by decide, by decide, by decide⟩

/-- C8 amended: neither `carveSeam` nor `getEnergyMatrix` checks its
input, so no image — malformed buffer length or degenerate dimensions
included — is ever rejected before processing.  For every image the step
runs the energy computation and the path search, and its outcome is
determined solely by that search: whenever a seam is found the buffer is
spliced and the width decremented with no error, and the step fails only
when the search itself yields no seam (as on a width-1 image with two or
more rows), an error arising downstream of the pipeline rather than from
any validation.  In particular every 1-by-1 image — of any buffer
length — is carved down to width 0, its first four samples spliced away,
instead of being rejected. -/
theorem carveSeam_never_rejects (sobel : Image → List ℕ) (img : Image) :
    (∀ s, pathfind (getEnergyMatrix (sobel img) img.width img.height) = some s →
      carveSeam sobel img =
        some ⟨carveLoopData img.width s img.data, img.width - 1, img.height⟩) ∧
    (pathfind (getEnergyMatrix (sobel img) img.width img.height) = none →
      carveSeam sobel img = none) ∧
    (img.width = 1 → img.height = 1 →
      carveSeam sobel img = some ⟨img.data.drop 4, 0, 1⟩) := by
  refine ⟨?_, ?_, ?_⟩
  · intro s hs
    simp only [carveSeam, hs]
  · intro hn
    simp only [carveSeam, hn]
  · intro hw hh
    exact carveSeam_one_by_one sobel img hw hh

/-- Witness for the amended C8: a malformed degenerate 1-by-1 image (an
8-sample buffer against declared 1-by-1 dimensions) is carved, not
rejected, and a degenerate width-1 height-2 image fails only through the
seam search. -/
theorem carveSeam_never_rejects_witness :
    carveSeam (fun im => im.data) ⟨[1, 2, 3, 4, 5, 6, 7, 8], 1, 1⟩
      = some ⟨[5, 6, 7, 8], 0, 1⟩ ∧
    carveSeam (fun im => im.data) ⟨List.replicate 8 5, 1, 2⟩ = none :=
  ⟨(carveSeam_never_rejects (fun im => im.data) ⟨[1, 2, 3, 4, 5, 6, 7, 8], 1, 1⟩).2.2 rfl rfl,
    (carveSeam_never_rejects (fun im => im.data) ⟨List.replicate 8 5, 1, 2⟩).2.1 (by decide)⟩

/-! ### Index-filtering lemmas for the seam remover (claim C2) -/

lemma keepIdx_congr {P Q : ℕ → Bool} (h : ∀ i, P i = Q i) :
    ∀ l : List ℕ, keepIdx P l = keepIdx Q l := by
  intro l
  induction l generalizing P Q with
  | nil => rfl
  | cons x l ih => simp only [keepIdx, h 0, ih (fun i => h (i + 1))]

lemma keepIdx_all_true {P : ℕ → Bool} :
    ∀ l : List ℕ, (∀ i, i < l.length → P i = true) → keepIdx P l = l := by
  intro l
  induction l generalizing P with
  | nil => intro _; rfl
  | cons x l ih =>
    intro h
    have h0 : P 0 = true := h 0 (Nat.succ_pos _)
    have hrec := ih (fun i hi => h (i + 1) (Nat.succ_lt_succ hi))
    simp only [keepIdx, h0, if_true, hrec]

lemma keepIdx_all_false {P : ℕ → Bool} :
    ∀ l : List ℕ, (∀ i, i < l.length → P i = false) → keepIdx P l = [] := by
  intro l
  induction l generalizing P with
  | nil => intro _; rfl
  | cons x l ih =>
    intro h
    have h0 : P 0 = false := h 0 (Nat.succ_pos _)
    have hrec := ih (fun i hi => h (i + 1) (Nat.succ_lt_succ hi))
    simp only [keepIdx, h0, Bool.false_eq_true, if_false, hrec]

lemma keepIdx_true (l : List ℕ) : keepIdx (fun _ => true) l = l :=
  keepIdx_all_true l (fun _ _ => rfl)

lemma keepIdx_append (P : ℕ → Bool) (l1 l2 : List ℕ) :
    keepIdx P (l1 ++ l2) = keepIdx P l1 ++ keepIdx (fun i => P (i + l1.length)) l2 := by
  induction l1 generalizing P with
  | nil =>
    simp only [List.nil_append, keepIdx, List.length_nil]
    exact (keepIdx_congr (fun i => by rw [Nat.add_zero]) l2).symm
  | cons x l1 ih =>
    have key : keepIdx (fun i => P (i + 1)) (l1 ++ l2) =
        keepIdx (fun i => P (i + 1)) l1 ++ keepIdx (fun i => P (i + (l1.length + 1))) l2 := by
      rw [ih]
      exact congrArg _ (keepIdx_congr (fun i => by rw [Nat.add_assoc]) l2)
    simp only [List.cons_append, keepIdx, List.length_cons]
    by_cases h0 : P 0 <;>
      simp only [h0, Bool.false_eq_true, if_true, if_false, List.append_eq, key, List.cons_append]

lemma splice4_length (l : List ℕ) (o : ℕ) (h : o + 4 ≤ l.length) :
    (splice4 l o).length = l.length - 4 := by
  simp only [splice4, List.length_append, List.length_take, List.length_drop]
  omega

lemma splice4_append_of_length (A X : List ℕ) (o : ℕ) (hAlen : A.length = o + 4) :
    splice4 (A ++ X) o = A.take o ++ X := by
  simp only [splice4, List.take_append_eq_append_take, List.drop_append_eq_append_drop, hAlen]
  rw [show o - (o + 4) = 0 from by omega, show o + 4 - (o + 4) = 0 from by omega,
    List.take_zero, List.drop_zero, List.append_nil,
    List.drop_eq_nil_of_le (le_of_eq hAlen), List.nil_append]

/-- Splicing four samples out of an index-filtered buffer, at an offset
below every index the filter removes, equals filtering out the run as
well.  This is the heart of C2: the splice loop runs from the bottom row
up, so each splice sits strictly below all previously removed runs. -/
lemma splice4_keepIdx (P : ℕ → Bool) (data : List ℕ) (o : ℕ)
    (hbelow : ∀ i, i < o + 4 → P i = true) (hlen : o + 4 ≤ data.length) :
    splice4 (keepIdx P data) o =
      keepIdx (fun i => P i && !(decide (o ≤ i ∧ i < o + 4))) data := by
  have hsplit := List.take_append_drop (o + 4) data
  set A := data.take (o + 4) with hAdef
  set B := data.drop (o + 4) with hBdef
  have hAlen : A.length = o + 4 := by
    rw [hAdef, List.length_take]; omega
  have htko : A.take o = data.take o := by
    rw [hAdef, List.take_take, show o ⊓ (o + 4) = o from by omega]
  have hkeepA : keepIdx P A = A :=
    keepIdx_all_true A (fun i hi => hbelow i (by omega))
  have hL : keepIdx P data = A ++ keepIdx (fun i => P (i + (o + 4))) B := by
    conv_lhs => rw [← hsplit]
    rw [keepIdx_append, hkeepA, hAlen]
  have hAsplit : A.take o ++ A.drop o = A := List.take_append_drop o A
  have htkolen : (A.take o).length = o := by
    rw [List.length_take, hAlen]; omega
  have hdlen : (A.drop o).length = 4 := by
    rw [List.length_drop, hAlen]; omega
  have hkeepAP : keepIdx (fun i => P i && !(decide (o ≤ i ∧ i < o + 4))) A = A.take o := by
    conv_lhs => rw [← hAsplit]
    rw [keepIdx_append, htkolen]
    have h1 : keepIdx (fun i => P i && !(decide (o ≤ i ∧ i < o + 4))) (A.take o) = A.take o := by
      refine keepIdx_all_true _ (fun i hi => ?_)
      rw [htkolen] at hi
      have hd : ¬(o ≤ i ∧ i < o + 4) := by omega
      simp [hbelow i (by omega), hd]
    have h2 : keepIdx (fun i => P (i + o) && !(decide (o ≤ i + o ∧ i + o < o + 4)))
        (A.drop o) = [] := by
      refine keepIdx_all_false _ (fun i hi => ?_)
      rw [hdlen] at hi
      have hd : o ≤ i + o ∧ i + o < o + 4 := by omega
      simp [hd]
    rw [h1, h2, List.append_nil]
  have hRshift :
      keepIdx (fun i => P (i + (o + 4)) && !(decide (o ≤ i + (o + 4) ∧ i + (o + 4) < o + 4))) B
      = keepIdx (fun i => P (i + (o + 4))) B := by
    refine keepIdx_congr (fun i => ?_) B
    have hd : ¬(o ≤ i + (o + 4) ∧ i + (o + 4) < o + 4) := by omega
    simp [hd]
  have hR : keepIdx (fun i => P i && !(decide (o ≤ i ∧ i < o + 4))) data
      = A.take o ++ keepIdx (fun i => P (i + (o + 4))) B := by
    conv_lhs => rw [← hsplit]
    rw [keepIdx_append, hAlen, hkeepAP, hRshift]
  rw [hL, hR, splice4_append_of_length _ _ _ hAlen]

lemma carveLoopData_nil (W : ℕ) (data : List ℕ) : carveLoopData W [] data = data := rfl

lemma carveLoopData_cons (W : ℕ) (x : Cell) (rest : List Cell) (data : List ℕ) :
    carveLoopData W (x :: rest) data =
      splice4 (carveLoopData W rest data) (x.1 * W * 4 + x.2 * 4) := by
  simp [carveLoopData, List.foldl_reverse]

lemma seam_off_bound (W r0 c : ℕ) (hc : c < W) :
    r0 * W * 4 + c * 4 + 4 ≤ (r0 + 1) * W * 4 := by
  have h1 : (c + 1) * 4 ≤ W * 4 := Nat.mul_le_mul_right 4 hc
  calc r0 * W * 4 + c * 4 + 4 = r0 * W * 4 + (c + 1) * 4 := by ring
    _ ≤ r0 * W * 4 + W * 4 := Nat.add_le_add_left h1 _
    _ = (r0 + 1) * W * 4 := by ring

lemma rows_fit_bound (W H r0 k : ℕ) (hW : 1 ≤ W) (hfit : r0 + 1 + k ≤ H) :
    (r0 + 1) * W * 4 + 4 * k ≤ W * H * 4 := by
  have h4 : 4 ≤ W * 4 := by omega
  have h1 : 4 * k ≤ W * 4 * k := Nat.mul_le_mul_right k h4
  calc (r0 + 1) * W * 4 + 4 * k
      ≤ (r0 + 1) * W * 4 + W * 4 * k := Nat.add_le_add_left h1 _
    _ = (r0 + 1 + k) * (W * 4) := by ring
    _ ≤ H * (W * 4) := Nat.mul_le_mul_right (W * 4) hfit
    _ = W * H * 4 := by ring

/-- The descending splice loop of `carveSeam` equals, for a seam covering
rows `r0, r0+1, …` with in-bounds columns, the filter that drops exactly
the seam's 4-sample runs; the output is 4 samples shorter per seam entry. -/
lemma carveLoopData_spec (W H : ℕ) (hW : 1 ≤ W) (data : List ℕ)
    (hlen : data.length = W * H * 4) :
    ∀ (seam : List Cell) (r0 : ℕ),
      (∀ i (hi : i < seam.length), (seam.get ⟨i, hi⟩).1 = r0 + i) →
      (∀ p ∈ seam, p.2 < W) →
      r0 + seam.length ≤ H →
      carveLoopData W seam data = keepIdx (fun i => !seamHit seam W i) data ∧
      (carveLoopData W seam data).length = data.length - 4 * seam.length := by
  intro seam
  induction seam with
  | nil =>
    intro r0 _ _ _
    constructor
    · rw [carveLoopData_nil]
      exact ((keepIdx_congr (fun i => by simp [seamHit]) data).trans (keepIdx_true data)).symm
    · rw [carveLoopData_nil]; simp
  | cons x rest ih =>
    intro r0 hrow hcol hfit
    have hx1 : x.1 = r0 := by simpa using hrow 0 (Nat.succ_pos _)
    have hxc : x.2 < W := hcol x (List.mem_cons_self x rest)
    have hrowR : ∀ i (hi : i < rest.length), (rest.get ⟨i, hi⟩).1 = (r0 + 1) + i := by
      intro i hi
      have h := hrow (i + 1) (Nat.succ_lt_succ hi)
      simp only [List.get_cons_succ] at h
      rw [h]; omega
    have hcolR : ∀ p ∈ rest, p.2 < W := fun p hp => hcol p (List.mem_cons_of_mem x hp)
    have hfitR : (r0 + 1) + rest.length ≤ H := by
      simp only [List.length_cons] at hfit; omega
    obtain ⟨ihEq, ihLen⟩ := ih (r0 + 1) hrowR hcolR hfitR
    have hoB : x.1 * W * 4 + x.2 * 4 + 4 ≤ (r0 + 1) * W * 4 := by
      rw [hx1]; exact seam_off_bound W r0 x.2 hxc
    have hfitB : (r0 + 1) * W * 4 + 4 * rest.length ≤ W * H * 4 :=
      rows_fit_bound W H r0 rest.length hW hfitR
    have hoData : x.1 * W * 4 + x.2 * 4 + 4 ≤ data.length := by
      rw [hlen]; omega
    have hrestlow : ∀ p ∈ rest, (r0 + 1) * W * 4 ≤ p.1 * W * 4 + p.2 * 4 := by
      intro p hp
      obtain ⟨⟨i, hi⟩, rfl⟩ := List.mem_iff_get.mp hp
      have hr := hrowR i hi
      have h1 : (r0 + 1) * W ≤ (rest.get ⟨i, hi⟩).1 * W :=
        Nat.mul_le_mul_right W (by rw [hr]; omega)
      have h2 : (r0 + 1) * W * 4 ≤ (rest.get ⟨i, hi⟩).1 * W * 4 :=
        Nat.mul_le_mul_right 4 h1
      omega
    have hbelow : ∀ i, i < x.1 * W * 4 + x.2 * 4 + 4 → (!seamHit rest W i) = true := by
      intro i hi
      have hfalse : seamHit rest W i = false := by
        rw [seamHit, List.any_eq_false]
        intro p hp
        have hs := le_trans hoB (hrestlow p hp)
        simp only [decide_eq_true_eq]
        intro hcontra
        exact Nat.lt_irrefl i (Nat.lt_of_lt_of_le hi (le_trans hs hcontra.1))
      rw [hfalse]; rfl
    have hkeeplen :
        (keepIdx (fun i => !seamHit rest W i) data).length = data.length - 4 * rest.length := by
      rw [← ihEq]; exact ihLen
    have hofit : x.1 * W * 4 + x.2 * 4 + 4 ≤ data.length - 4 * rest.length := by
      rw [hlen]; omega
    rw [carveLoopData_cons, ihEq]
    constructor
    · rw [splice4_keepIdx _ _ _ hbelow hoData]
      refine keepIdx_congr (fun i => ?_) data
      have hcons : seamHit (x :: rest) W i =
          (decide (x.1 * W * 4 + x.2 * 4 ≤ i ∧ i < x.1 * W * 4 + x.2 * 4 + 4)
            || seamHit rest W i) := by
        rw [seamHit, List.any_cons]; rfl
      rw [hcons, Bool.not_or, Bool.and_comm]
    · rw [splice4_length _ _ (by rw [hkeeplen]; exact hofit)]
      rw [hkeeplen]
      simp only [List.length_cons]
      omega

lemma getD_eq_get {α : Type} (l : List α) (d : α) (i : ℕ) (hi : i < l.length) :
    l.getD i d = l.get ⟨i, hi⟩ := by
  rw [List.getD_eq_getElem?_getD, List.getElem?_eq_getElem hi]
  rfl

/-! ### Claim C2: the seam remover -/

/-- C2: for every image of width `W` and height `H` and every valid seam
(one coordinate per row, columns in bounds) found by the search,
`carveSeam` yields exactly the input buffer with the 4-sample run at flat
offset `row*W*4 + col*4` removed for each seam entry — all samples off the
seam preserved in relative order (rendered by the spec-side index filter
`keepIdx`/`seamHit`) — with width `W - 1`, unchanged height, and buffer
length `(W-1)*H*4`. -/
theorem carveSeam_removes_seam (sobel : Image → List ℕ) (img : Image) (seam : List Cell)
    (hW : 1 ≤ img.width)
    (hlen : img.data.length = img.width * img.height * 4)
    (hlenS : seam.length = img.height)
    (hrows : ∀ i, i < seam.length → (seam.getD i (0, 0)).1 = i)
    (hcols : ∀ p ∈ seam, p.2 < img.width)
    (hpf : pathfind (getEnergyMatrix (sobel img) img.width img.height) = some seam) :
    carveSeam sobel img =
      some ⟨keepIdx (fun i => !seamHit seam img.width i) img.data,
        img.width - 1, img.height⟩ ∧
    (keepIdx (fun i => !seamHit seam img.width i) img.data).length =
      (img.width - 1) * img.height * 4 := by
  have hrows2 : ∀ i (hi : i < seam.length), (seam.get ⟨i, hi⟩).1 = 0 + i := by
    intro i hi
    rw [← getD_eq_get seam (0, 0) i hi, hrows i hi]
    omega
  obtain ⟨hEq, hLen⟩ :=
    carveLoopData_spec img.width img.height hW img.data hlen seam 0 hrows2 hcols (by omega)
  have hsub : img.data.length - 4 * seam.length = (img.width - 1) * img.height * 4 := by
    rw [hlen, hlenS]
    obtain ⟨w, hw⟩ : ∃ w, img.width = w + 1 := ⟨img.width - 1, by omega⟩
    rw [hw]
    have hx : (w + 1) * img.height * 4 = w * img.height * 4 + 4 * img.height := by ring
    simp only [Nat.add_sub_cancel]
    omega
  refine ⟨?_, ?_⟩
  · simp only [carveSeam, hpf]
    rw [hEq]
  · rw [← hEq, hLen, hsub]

/-- Witness for C2: a concrete 2-by-1 image whose seam is `[(0, 1)]`. -/
theorem carveSeam_removes_seam_witness :
    (carveSeam (fun im => im.data) ⟨[10, 11, 12, 13, 20, 21, 22, 23], 2, 1⟩ =
      some ⟨keepIdx (fun i => !seamHit [(0, 1)] 2 i) [10, 11, 12, 13, 20, 21, 22, 23], 1, 1⟩) ∧
    (keepIdx (fun i => !seamHit [(0, 1)] 2 i) [10, 11, 12, 13, 20, 21, 22, 23]).length
      = 1 * 1 * 4 :=
  carveSeam_removes_seam (fun im => im.data) ⟨[10, 11, 12, 13, 20, 21, 22, 23], 2, 1⟩ [(0, 1)]
    (by decide) (by decide) (by decide) (by decide) (by decide) (by decide)

/-! ### Path predicates and search invariants for pathfind (claims C1, C3, C4, C6) -/

lemma valid_ne_nil {rows cols : ℕ} {l : List Cell} (h : ValidPath rows cols l) : l ≠ [] := by
  intro hnil
  rw [hnil] at h
  exact Option.noConfusion h.1

lemma valid_head {rows cols : ℕ} {l : List Cell} (h : ValidPath rows cols l) (hi : 0 < l.length) :
    l.get ⟨0, hi⟩ = (0, cols / 2) := by
  cases l with
  | nil => exact absurd hi (by simp)
  | cons a t => exact Option.some.inj h.1

lemma valid_rows {rows cols : ℕ} {l : List Cell} (h : ValidPath rows cols l) :
    ∀ i (hi : i < l.length), (l.get ⟨i, hi⟩).1 = i := by
  intro i
  induction i with
  | zero =>
    intro hi
    rw [valid_head h hi]
  | succ i ih =>
    intro hi
    have hstep := List.chain'_iff_get.mp h.2 i (by omega)
    have hr := ih (by omega)
    rw [hstep.1, hr]

lemma valid_cols {rows cols : ℕ} {l : List Cell} (h : ValidPath rows cols l) (hc : 0 < cols) :
    ∀ p ∈ l, p.2 < cols := by
  intro p hp
  obtain ⟨⟨i, hi⟩, rfl⟩ := List.mem_iff_get.mp hp
  induction i with
  | zero =>
    rw [valid_head h hi]
    exact Nat.div_lt_self hc (by omega)
  | succ i ih =>
    have hstep := List.chain'_iff_get.mp h.2 i (by omega)
    exact hstep.2.2.2

lemma valid_getLast_length {rows cols : ℕ} {l : List Cell} (h : ValidPath rows cols l)
    {p : Cell} (hp : l.getLast? = some p) : l.length = p.1 + 1 := by
  have hne := valid_ne_nil h
  have hlpos : 0 < l.length := List.length_pos.mpr hne
  have hlast : l.getLast? = some (l.get ⟨l.length - 1, by omega⟩) := by
    rw [List.getLast?_eq_getLast _ hne, List.getLast_eq_getElem, List.get_eq_getElem]
  rw [hlast] at hp
  have := valid_rows h (l.length - 1) (by omega)
  rw [Option.some.inj hp] at this
  omega

lemma pathCost_append (m : List (List ℕ)) (l1 l2 : List Cell) :
    pathCost m (l1 ++ l2) = pathCost m l1 + pathCost m l2 := by
  simp [pathCost]

lemma pathCost_prefix_le (m : List (List ℕ)) {pre l : List Cell} (h : pre <+: l) :
    pathCost m pre ≤ pathCost m l := by
  obtain ⟨t, rfl⟩ := h
  rw [pathCost_append]
  omega

lemma valid_append_single {rows cols : ℕ} {l : List Cell} {q p : Cell}
    (h : ValidPath rows cols l) (hq : l.getLast? = some q) (hstep : stepOK rows cols q p) :
    ValidPath rows cols (l ++ [p]) := by
  constructor
  · rw [List.head?_append_of_ne_nil _ (valid_ne_nil h)]
    exact h.1
  · rw [List.chain'_append]
    refine ⟨h.2, List.chain'_singleton p, ?_⟩
    intro x hx y hy
    rw [hq] at hx
    simp only [Option.mem_def] at hx
    simp only [List.head?_cons, Option.mem_def] at hy
    have hx2 : x = q := (Option.some.inj hx).symm
    have hy2 : y = p := (Option.some.inj hy).symm
    rw [hx2, hy2]
    exact hstep

lemma Inv_init (m : List (List ℕ)) (rows cols : ℕ)
    (hrows : rows = m.length) (hcols : cols = colsOf m) (h1 : 1 ≤ rows) (h2 : 1 ≤ cols) :
    Inv m rows cols (pathfindInit m) := by
  have hstart : ∀ p : Cell, (pathfindInit m).distances p =
      if p = (0, cols / 2) then some (energyAt m (0, cols / 2)) else none := by
    intro p
    simp [pathfindInit, updF, hcols]
  have hvis : ∀ p : Cell, (pathfindInit m).visited p = false := by
    intro p; simp [pathfindInit]
  have hprev : ∀ p : Cell, (pathfindInit m).previous p = none := by
    intro p; simp [pathfindInit]
  have hq : (pathfindInit m).queue = [⟨0, colsOf m / 2, energyAt m (0, colsOf m / 2)⟩] := rfl
  have hmid : cols / 2 < cols := Nat.div_lt_self (by omega) (by omega)
  have hmid2 : colsOf m / 2 < colsOf m := by
    rw [← hcols]
    exact hmid
  refine
    { achieve := ?_, dist_start := ?_, prev_none := ?_, prev_some := ?_, entry_ok := ?_,
      unvisited_entry := ?_, visited_le := ?_, visited_ok := ?_, visited_relaxed := ?_,
      lower := ?_ }
  · intro p d hd
    rw [hstart] at hd
    by_cases hp : p = (0, cols / 2)
    · rw [if_pos hp] at hd
      refine ⟨[(0, cols / 2)], ⟨rfl, List.chain'_singleton _⟩, by rw [hp]; rfl, ?_⟩
      have hde : energyAt m (0, cols / 2) = d := Option.some.inj hd
      simp only [pathCost, List.map_cons, List.map_nil, List.sum_cons, List.sum_nil]
      omega
    · rw [if_neg hp] at hd
      exact Option.noConfusion hd
  · rw [hstart, if_pos rfl]
  · intro p d _ hd
    rw [hstart] at hd
    by_cases hp : p = (0, cols / 2)
    · exact hp
    · rw [if_neg hp] at hd
      exact Option.noConfusion hd
  · intro p q hpq
    rw [hprev] at hpq
    exact Option.noConfusion hpq
  · intro e he
    rw [hq, List.mem_singleton] at he
    subst he
    refine ⟨by exact h1, by rw [hcols]; exact hmid2, energyAt m (0, colsOf m / 2), ?_, le_refl _⟩
    rw [hstart]
    simp [hcols]
  · intro p d hv hd
    rw [hstart] at hd
    by_cases hp : p = (0, cols / 2)
    · refine ⟨⟨0, colsOf m / 2, energyAt m (0, colsOf m / 2)⟩, by rw [hq]; exact List.mem_singleton_self _, ?_, ?_, ?_⟩
      · simp [hp]
      · simp [hp, hcols]
      · rw [if_pos hp] at hd
        have hde := Option.some.inj hd
        rw [hcols] at hde
        exact hde
    · rw [if_neg hp] at hd
      exact Option.noConfusion hd
  · intro p hv
    rw [hvis] at hv
    exact Bool.noConfusion hv
  · intro p hv
    rw [hvis] at hv
    exact Bool.noConfusion hv
  · intro p c2 hv
    rw [hvis] at hv
    exact Bool.noConfusion hv
  · intro l p hl hp hv
    refine ⟨[(0, cols / 2)], (0, cols / 2), energyAt m (0, cols / 2), ?_, rfl, hvis _, ?_, ?_⟩
    · obtain ⟨a, t, rfl⟩ : ∃ a t, l = a :: t := by
        cases l with
        | nil => exact absurd hl.1 (by simp)
        | cons a t => exact ⟨a, t, rfl⟩
      have ha : a = (0, cols / 2) := Option.some.inj hl.1
      rw [ha]
      exact ⟨t, rfl⟩
    · rw [hstart, if_pos rfl]
    · simp only [pathCost, List.map_cons, List.map_nil, List.sum_cons, List.sum_nil]
      omega

lemma sort_mem {q : List Entry} {x : Entry} : x ∈ List.insertionSort entryLE q ↔ x ∈ q :=
  (List.perm_insertionSort entryLE q).mem_iff

lemma sort_head_min {q : List Entry} {e : Entry} {rest : List Entry}
    (h : List.insertionSort entryLE q = e :: rest) :
    ∀ x ∈ rest, e.distance ≤ x.distance := by
  have hs := List.sorted_insertionSort entryLE q
  rw [h] at hs
  exact fun x hx => (List.pairwise_cons.mp hs).1 x hx

lemma sort_head_mem {q : List Entry} {e : Entry} {rest : List Entry}
    (h : List.insertionSort entryLE q = e :: rest) : e ∈ q := by
  rw [← sort_mem (q := q), h]
  exact List.mem_cons_self e rest

lemma sort_queue_decomp {q : List Entry} {e : Entry} {rest : List Entry}
    (h : List.insertionSort entryLE q = e :: rest) : ∀ x, x ∈ q ↔ (x = e ∨ x ∈ rest) := by
  intro x
  rw [← sort_mem (q := q), h, List.mem_cons]

lemma sort_length {q : List Entry} : (List.insertionSort entryLE q).length = q.length :=
  (List.perm_insertionSort entryLE q).length_eq

/-- The head of the sorted queue carries the current recorded distance of
its cell whenever that cell is unvisited. -/
lemma popped_distance {m : List (List ℕ)} {rows cols : ℕ} {st : PFState} {e : Entry}
    {rest : List Entry} (hInv : Inv m rows cols st)
    (hsort : List.insertionSort entryLE st.queue = e :: rest)
    (hunvis : st.visited (e.row, e.col) = false) :
    st.distances (e.row, e.col) = some e.distance := by
  obtain ⟨_, _, d, hd, hle⟩ := hInv.entry_ok e (sort_head_mem hsort)
  obtain ⟨w, hw, hwr, hwc, hwd⟩ := hInv.unvisited_entry (e.row, e.col) d hunvis hd
  rcases (sort_queue_decomp hsort w).mp hw with hwe | hwrest
  · rw [hd]
    rw [hwe] at hwd
    rw [hwd]
  · have hmin := sort_head_min hsort w hwrest
    rw [hd]
    have : e.distance ≤ d := by
      rw [← hwd]
      exact hmin
    congr 1
    omega

/-- Walking the predecessor links from a finite-distance cell at row `r`
with fuel `r` yields a valid path from the start whose cost is exactly the
recorded distance. -/
lemma traceback_spec {m : List (List ℕ)} {rows cols : ℕ} {st : PFState}
    (hInv : Inv m rows cols st) :
    ∀ (r c d : ℕ) (acc : List Cell), st.distances (r, c) = some d →
    ∃ l, traceback st.previous r (r, c) acc = l ++ acc ∧ ValidPath rows cols l ∧
      l.getLast? = some (r, c) ∧ pathCost m l = d ∧ l.length = r + 1 := by
  intro r
  induction r with
  | zero =>
    intro c d acc hd
    have hc : c = cols / 2 := by
      cases hprev : st.previous (0, c) with
      | none =>
        have h0 := hInv.prev_none (0, c) d hprev hd
        exact congrArg Prod.snd h0
      | some q =>
        have h1 := (hInv.prev_some (0, c) q hprev).1
        omega
    subst hc
    have hde : d = energyAt m (0, cols / 2) := by
      have hds := hInv.dist_start
      rw [hd] at hds
      exact Option.some.inj hds
    refine ⟨[(0, cols / 2)], rfl, ⟨rfl, List.chain'_singleton _⟩, rfl, ?_, rfl⟩
    simp [pathCost, hde]
  | succ r ih =>
    intro c d acc hd
    cases hprev : st.previous (r + 1, c) with
    | none =>
      have h0 := hInv.prev_none (r + 1, c) d hprev hd
      have : r + 1 = 0 := congrArg Prod.fst h0
      omega
    | some q =>
      obtain ⟨hq1, hadj, hpr, hpc, hqvis, dq, hdq, hdp⟩ := hInv.prev_some (r + 1, c) q hprev
      have hdd : d = dq + energyAt m (r + 1, c) := by
        rw [hd] at hdp
        exact Option.some.inj hdp
      have hqe : q = (r, q.2) := by
        have : q.1 = r := by omega
        rw [← this]
      obtain ⟨l2, hteq, hvalid, hlast, hcost, hlen⟩ :=
        ih q.2 dq ((r + 1, c) :: acc) (by rw [← hqe]; exact hdq)
      refine ⟨l2 ++ [(r + 1, c)], ?_, ?_, ?_, ?_, ?_⟩
      · show traceback st.previous (r + 1) (r + 1, c) acc = _
        simp only [traceback, hprev]
        rw [hqe, hteq, List.append_assoc]
        rfl
      · refine valid_append_single hvalid (by rw [hlast]) ?_
        exact ⟨rfl, hadj, hpr, hpc⟩
      · rw [List.getLast?_append]
        rfl
      · rw [pathCost_append, hcost, hdd]
        simp [pathCost]
      · rw [List.length_append, hlen]
        simp
  

/-- Case analysis of a single neighbor relaxation: either the state is
unchanged (out of bounds, or no strict improvement — and then, in bounds,
the recorded distance is already at most the candidate), or the target got
distance, predecessor and a queue entry recorded. -/
lemma relaxOne_spec (m : List (List ℕ)) (rows cols row col dist : ℕ) (st : PFState) (j : ℤ) :
    (relaxOne m rows cols row col dist st j = st ∧
      (row + 1 < rows → 0 ≤ (col : ℤ) + j → (col : ℤ) + j < (cols : ℤ) →
        ∃ d0, st.distances (row + 1, ((col : ℤ) + j).toNat) = some d0 ∧
          d0 ≤ dist + energyAt m (row + 1, ((col : ℤ) + j).toNat))) ∨
    (row + 1 < rows ∧ 0 ≤ (col : ℤ) + j ∧ (col : ℤ) + j < (cols : ℤ) ∧
      (∀ d0, st.distances (row + 1, ((col : ℤ) + j).toNat) = some d0 →
        dist + energyAt m (row + 1, ((col : ℤ) + j).toNat) < d0) ∧
      relaxOne m rows cols row col dist st j =
        { distances := updF st.distances (row + 1, ((col : ℤ) + j).toNat)
            (some (dist + energyAt m (row + 1, ((col : ℤ) + j).toNat)))
          visited := st.visited
          previous := updF st.previous (row + 1, ((col : ℤ) + j).toNat) (some (row, col))
          queue := st.queue ++
            [⟨row + 1, ((col : ℤ) + j).toNat,
              dist + energyAt m (row + 1, ((col : ℤ) + j).toNat)⟩] }) := by
  by_cases hg : row + 1 < rows ∧ 0 ≤ (col : ℤ) + j ∧ (col : ℤ) + j < (cols : ℤ)
  · cases hdist : st.distances (row + 1, ((col : ℤ) + j).toNat) with
    | none =>
      right
      refine ⟨hg.1, hg.2.1, hg.2.2, ?_, ?_⟩
      · intro d0 hd0
        exact Option.noConfusion hd0
      · simp [relaxOne, hg, hdist]
    | some d =>
      by_cases himp : dist + energyAt m (row + 1, ((col : ℤ) + j).toNat) < d
      · right
        refine ⟨hg.1, hg.2.1, hg.2.2, ?_, ?_⟩
        · intro d0 hd0
          rw [← Option.some.inj hd0]
          exact himp
        · simp [relaxOne, hg, hdist, himp]
      · left
        constructor
        · simp [relaxOne, hg, hdist, himp]
        · intro _ _ _
          exact ⟨d, rfl, by omega⟩
  · left
    constructor
    · simp [relaxOne, hg]
    · intro h1 h2 h3
      exact absurd ⟨h1, h2, h3⟩ hg

lemma relaxOne_visited (m : List (List ℕ)) (rows cols row col dist : ℕ) (st : PFState) (j : ℤ) :
    (relaxOne m rows cols row col dist st j).visited = st.visited := by
  rcases relaxOne_spec m rows cols row col dist st j with ⟨heq, _⟩ | ⟨_, _, _, _, heq⟩ <;>
    rw [heq]

lemma relaxOne_pointwise (m : List (List ℕ)) (rows cols row col dist : ℕ) (st : PFState)
    (j : ℤ) (hj : j = -1 ∨ j = 1) : ∀ p : Cell,
    ((relaxOne m rows cols row col dist st j).distances p = st.distances p ∧
      (relaxOne m rows cols row col dist st j).previous p = st.previous p) ∨
    (p.1 = row + 1 ∧ ((j = 1 ∧ p.2 = col + 1) ∨ (j = -1 ∧ col = p.2 + 1)) ∧
      p.1 < rows ∧ p.2 < cols ∧
      (relaxOne m rows cols row col dist st j).distances p = some (dist + energyAt m p) ∧
      (relaxOne m rows cols row col dist st j).previous p = some (row, col) ∧
      (∀ d0, st.distances p = some d0 → dist + energyAt m p < d0) ∧
      (⟨p.1, p.2, dist + energyAt m p⟩ : Entry) ∈ (relaxOne m rows cols row col dist st j).queue) := by
  intro p
  rcases relaxOne_spec m rows cols row col dist st j with ⟨heq, _⟩ | ⟨hb, hc0, hcc, himp, heq⟩
  · left
    rw [heq]
    exact ⟨rfl, rfl⟩
  · by_cases hp : p = (row + 1, ((col : ℤ) + j).toNat)
    · right
      have hadj : (j = 1 ∧ p.2 = col + 1) ∨ (j = -1 ∧ col = p.2 + 1) := by
        rcases hj with hj | hj
        · right
          refine ⟨hj, ?_⟩
          rw [hp]
          simp only
          rw [hj] at hc0 ⊢
          omega
        · left
          refine ⟨hj, ?_⟩
          rw [hp]
          simp only
          rw [hj]
          omega
      have hbound : p.1 < rows ∧ p.2 < cols := by
        rw [hp]
        refine ⟨hb, ?_⟩
        simp only
        omega
      refine ⟨by rw [hp], hadj, hbound.1, hbound.2, ?_, ?_, ?_, ?_⟩
      · rw [heq, hp]
        simp only
        rw [updF]
        simp
      · rw [heq, hp]
        simp only
        rw [updF]
        simp
      · intro d0 hd0
        rw [hp] at hd0 ⊢
        exact himp d0 hd0
      · rw [heq, hp]
        simp only
        exact List.mem_append_right _ (List.mem_singleton_self _)
    · left
      rw [heq]
      simp only
      constructor
      · rw [updF, if_neg hp]
      · rw [updF, if_neg hp]

lemma relaxOne_queue_facts (m : List (List ℕ)) (rows cols row col dist : ℕ) (st : PFState)
    (j : ℤ) (hj : j = -1 ∨ j = 1) :
    ∃ news, (relaxOne m rows cols row col dist st j).queue = st.queue ++ news ∧
      news.length ≤ 1 ∧
      ∀ w ∈ news, w.row = row + 1 ∧ ((j = 1 ∧ w.col = col + 1) ∨ (j = -1 ∧ col = w.col + 1)) ∧
        w.row < rows ∧ w.col < cols ∧
        (relaxOne m rows cols row col dist st j).distances (w.row, w.col) = some w.distance ∧
        w.distance = dist + energyAt m (w.row, w.col) := by
  rcases relaxOne_spec m rows cols row col dist st j with ⟨heq, _⟩ | ⟨hb, hc0, hcc, himp, heq⟩
  · refine ⟨[], ?_, ?_, ?_⟩
    · rw [heq, List.append_nil]
    · simp
    · intro w hw
      exact absurd hw (List.not_mem_nil w)
  · refine ⟨[⟨row + 1, ((col : ℤ) + j).toNat, dist + energyAt m (row + 1, ((col : ℤ) + j).toNat)⟩],
      ?_, ?_, ?_⟩
    · rw [heq]
    · simp
    · intro w hw
      rw [List.mem_singleton] at hw
      subst hw
      refine ⟨rfl, ?_, hb, ?_, ?_, rfl⟩
      · rcases hj with hj | hj
        · subst hj
          right
          refine ⟨rfl, ?_⟩
          show col = ((col : ℤ) + -1).toNat + 1
          omega
        · subst hj
          left
          refine ⟨rfl, ?_⟩
          show ((col : ℤ) + 1).toNat = col + 1
          omega
      · show ((col : ℤ) + j).toNat < cols
        omega
      · show (relaxOne m rows cols row col dist st j).distances
            (row + 1, ((col : ℤ) + j).toNat)
            = some (dist + energyAt m (row + 1, ((col : ℤ) + j).toNat))
        rw [heq]
        show updF st.distances (row + 1, ((col : ℤ) + j).toNat) _
            (row + 1, ((col : ℤ) + j).toNat) = _
        rw [updF]
        simp

lemma relaxOne_post (m : List (List ℕ)) (rows cols row col dist : ℕ) (st : PFState)
    (j : ℤ) (c2 : ℕ) (hadj : (j = 1 ∧ c2 = col + 1) ∨ (j = -1 ∧ col = c2 + 1))
    (hb : row + 1 < rows) (hc : c2 < cols) :
    ∃ dn, (relaxOne m rows cols row col dist st j).distances (row + 1, c2) = some dn ∧
      dn ≤ dist + energyAt m (row + 1, c2) := by
  have htn : ((col : ℤ) + j).toNat = c2 := by
    rcases hadj with ⟨hj, hc2⟩ | ⟨hj, hc2⟩ <;> rw [hj] <;> omega
  have hg0 : 0 ≤ (col : ℤ) + j := by
    rcases hadj with ⟨hj, hc2⟩ | ⟨hj, hc2⟩ <;> rw [hj] <;> omega
  have hgc : (col : ℤ) + j < (cols : ℤ) := by
    rcases hadj with ⟨hj, hc2⟩ | ⟨hj, hc2⟩ <;> rw [hj] <;> omega
  rcases relaxOne_spec m rows cols row col dist st j with ⟨heq, hpost⟩ | ⟨_, _, _, _, heq⟩
  · obtain ⟨d0, hd0, hle⟩ := hpost hb hg0 hgc
    rw [htn] at hd0 hle
    exact ⟨d0, by rw [heq]; exact hd0, hle⟩
  · rw [heq]
    simp only
    rw [htn, updF]
    simp

/-- Composite facts about relaxing both neighbors of the freshly visited
cell `(row, col)` (down-left first, then down-right), relative to the input
state: pointwise distance/predecessor changes, queue growth, and the
relaxedness of both in-bounds neighbors. -/
lemma relax2_facts (m : List (List ℕ)) (rows cols row col dist : ℕ) (st1 : PFState) :
    ((relaxOne m rows cols row col dist (relaxOne m rows cols row col dist st1 (-1)) 1).visited
      = st1.visited) ∧
    (∀ p : Cell,
      ((relaxOne m rows cols row col dist (relaxOne m rows cols row col dist st1 (-1)) 1).distances p
          = st1.distances p ∧
        (relaxOne m rows cols row col dist (relaxOne m rows cols row col dist st1 (-1)) 1).previous p
          = st1.previous p) ∨
      (p.1 = row + 1 ∧ (p.2 = col + 1 ∨ col = p.2 + 1) ∧ p.1 < rows ∧ p.2 < cols ∧
        (relaxOne m rows cols row col dist (relaxOne m rows cols row col dist st1 (-1)) 1).distances p
          = some (dist + energyAt m p) ∧
        (relaxOne m rows cols row col dist (relaxOne m rows cols row col dist st1 (-1)) 1).previous p
          = some (row, col) ∧
        (∀ d0, st1.distances p = some d0 → dist + energyAt m p < d0) ∧
        (⟨p.1, p.2, dist + energyAt m p⟩ : Entry) ∈
          (relaxOne m rows cols row col dist (relaxOne m rows cols row col dist st1 (-1)) 1).queue)) ∧
    (∃ news,
      (relaxOne m rows cols row col dist (relaxOne m rows cols row col dist st1 (-1)) 1).queue
        = st1.queue ++ news ∧ news.length ≤ 2 ∧
      ∀ w ∈ news, w.row = row + 1 ∧ (w.col = col + 1 ∨ col = w.col + 1) ∧
        w.row < rows ∧ w.col < cols ∧
        (relaxOne m rows cols row col dist (relaxOne m rows cols row col dist st1 (-1)) 1).distances
          (w.row, w.col) = some w.distance ∧
        w.distance = dist + energyAt m (w.row, w.col)) ∧
    (∀ c2, (c2 = col + 1 ∨ col = c2 + 1) → row + 1 < rows → c2 < cols →
      ∃ dn,
        (relaxOne m rows cols row col dist (relaxOne m rows cols row col dist st1 (-1)) 1).distances
          (row + 1, c2) = some dn ∧ dn ≤ dist + energyAt m (row + 1, c2)) := by
  set stMid := relaxOne m rows cols row col dist st1 (-1) with hMid
  set st2 := relaxOne m rows cols row col dist stMid 1 with h2
  have hL : (-1 : ℤ) = -1 ∨ (-1 : ℤ) = 1 := Or.inl rfl
  have hR : (1 : ℤ) = -1 ∨ (1 : ℤ) = 1 := Or.inr rfl
  have hpw1 := relaxOne_pointwise m rows cols row col dist st1 (-1) hL
  have hpw2 := relaxOne_pointwise m rows cols row col dist stMid 1 hR
  have hqf1 := relaxOne_queue_facts m rows cols row col dist st1 (-1) hL
  have hqf2 := relaxOne_queue_facts m rows cols row col dist stMid 1 hR
  obtain ⟨n1, hq1, hn1len, hn1⟩ := hqf1
  obtain ⟨n2, hq2, hn2len, hn2⟩ := hqf2
  -- second relax leaves cells with left-adjacency untouched
  have hkeepL : ∀ p : Cell, col = p.2 + 1 → st2.distances p = stMid.distances p := by
    intro p hpc
    rcases hpw2 p with ⟨hd, _⟩ | ⟨_, hadj, _⟩
    · exact hd
    · rcases hadj with ⟨_, hc⟩ | ⟨hj, _⟩
      · omega
      · exact absurd hj (by decide)
  refine ⟨?_, ?_, ?_, ?_⟩
  · rw [relaxOne_visited, relaxOne_visited]
  · intro p
    rcases hpw2 p with ⟨hd2, hp2⟩ | ⟨hr2, hadj2, hbr2, hbc2, hdist2, hprev2, himp2, hmem2⟩
    · rcases hpw1 p with ⟨hd1, hp1⟩ | ⟨hr1, hadj1, hbr1, hbc1, hdist1, hprev1, himp1, hmem1⟩
      · exact Or.inl ⟨hd2.trans hd1, hp2.trans hp1⟩
      · right
        have hadj1n : col = p.2 + 1 := by
          rcases hadj1 with ⟨hj, _⟩ | ⟨_, hc⟩
          · exact absurd hj (by decide)
          · exact hc
        refine ⟨hr1, Or.inr hadj1n, hbr1, hbc1, hd2.trans hdist1, hp2.trans hprev1, himp1, ?_⟩
        rw [hq2]
        exact List.mem_append_left _ hmem1
    · right
      have hadj2n : p.2 = col + 1 := by
        rcases hadj2 with ⟨_, hc⟩ | ⟨hj, _⟩
        · exact hc
        · exact absurd hj (by decide)
      have hMidp : stMid.distances p = st1.distances p := by
        rcases hpw1 p with ⟨hd1, _⟩ | ⟨_, hadj1, _⟩
        · exact hd1
        · rcases hadj1 with ⟨hj, _⟩ | ⟨_, hc⟩
          · exact absurd hj (by decide)
          · omega
      refine ⟨hr2, Or.inl hadj2n, hbr2, hbc2, hdist2, hprev2, ?_, hmem2⟩
      intro d0 hd0
      exact himp2 d0 (by rw [hMidp]; exact hd0)
  · refine ⟨n1 ++ n2, ?_, ?_, ?_⟩
    · rw [hq2, hq1, List.append_assoc]
    · rw [List.length_append]; omega
    · intro w hw
      rcases List.mem_append.mp hw with hw1 | hw2
      · obtain ⟨hwr, hwadj, hwbr, hwbc, hwdist, hwval⟩ := hn1 w hw1
        have hwadjn : col = w.col + 1 := by
          rcases hwadj with ⟨hj, _⟩ | ⟨_, hc⟩
          · exact absurd hj (by decide)
          · exact hc
        refine ⟨hwr, Or.inr hwadjn, hwbr, hwbc, ?_, hwval⟩
        rw [hkeepL (w.row, w.col) hwadjn]
        exact hwdist
      · obtain ⟨hwr, hwadj, hwbr, hwbc, hwdist, hwval⟩ := hn2 w hw2
        have hwadjn : w.col = col + 1 := by
          rcases hwadj with ⟨_, hc⟩ | ⟨hj, _⟩
          · exact hc
          · exact absurd hj (by decide)
        exact ⟨hwr, Or.inl hwadjn, hwbr, hwbc, hwdist, hwval⟩
  · intro c2 hadj hbr hbc
    rcases hadj with hadj | hadj
    · exact relaxOne_post m rows cols row col dist stMid 1 c2 (Or.inl ⟨rfl, hadj⟩) hbr hbc
    · obtain ⟨dn, hdn, hdnle⟩ :=
        relaxOne_post m rows cols row col dist st1 (-1) c2 (Or.inr ⟨rfl, hadj⟩) hbr hbc
      refine ⟨dn, ?_, hdnle⟩
      rw [hkeepL (row + 1, c2) (by simpa using hadj)]
      exact hdn

/-- Walking down a valid path from a visited cell whose recorded distance
is below the prefix cost, one eventually reaches an unvisited cell whose
recorded distance is below its prefix cost (the path's endpoint is
unvisited, and every visited cell has both in-bounds next-row neighbors
relaxed). -/
lemma descend_path (m : List (List ℕ)) (rows cols : ℕ) (st2 : PFState)
    (hrel : ∀ p c2, st2.visited p = true → (c2 = p.2 + 1 ∨ p.2 = c2 + 1) →
      p.1 + 1 < rows → c2 < cols →
      ∃ dp dn, st2.distances p = some dp ∧ st2.distances (p.1 + 1, c2) = some dn ∧
        dn ≤ dp + energyAt m (p.1 + 1, c2))
    (hok : ∀ p, st2.visited p = true → p.1 < rows ∧ p.2 < cols ∧ p.1 ≠ rows - 1)
    (h1 : 1 ≤ rows) :
    ∀ (t pre l : List Cell) (x : Cell) (dx : ℕ) (u : Cell),
      l = pre ++ t → ValidPath rows cols l → pre.getLast? = some x →
      st2.visited x = true → st2.distances x = some dx → dx ≤ pathCost m pre →
      l.getLast? = some u → st2.visited u = false →
      ∃ pre2 q dq, pre2 <+: l ∧ pre2.getLast? = some q ∧ st2.visited q = false ∧
        st2.distances q = some dq ∧ dq ≤ pathCost m pre2 := by
  intro t
  induction t with
  | nil =>
    intro pre l x dx u hsplit hvalid hpl hxv hxd hxc hlast hu
    rw [List.append_nil] at hsplit
    subst hsplit
    rw [hlast] at hpl
    have hxu : u = x := Option.some.inj hpl
    rw [← hxu] at hxv
    rw [hxv] at hu
    exact Bool.noConfusion hu
  | cons y t2 ih =>
    intro pre l x dx u hsplit hvalid hpl hxv hxd hxc hlast hu
    have hchain := hvalid.2
    rw [hsplit, List.chain'_append] at hchain
    have hstep : stepOK rows cols x y := by
      refine hchain.2.2 x ?_ y ?_
      · rw [hpl]; rfl
      · rfl
    obtain ⟨hy1, hyadj, hybr, hybc⟩ := hstep
    obtain ⟨hx1, hx2, hxne⟩ := hok x hxv
    have hx1b : x.1 + 1 < rows := by omega
    obtain ⟨dp, dn, hdp, hdn, hdnle⟩ := hrel x y.2 hxv hyadj hx1b hybc
    have hdpx : dp = dx := by
      rw [hxd] at hdp
      exact (Option.some.inj hdp).symm
    have hyy : ((x.1 + 1 : ℕ), y.2) = y := by
      rw [← hy1]
    rw [hyy] at hdn hdnle
    have hsplit2 : l = (pre ++ [y]) ++ t2 := by
      rw [hsplit, List.append_assoc]
      rfl
    have hplast2 : (pre ++ [y]).getLast? = some y := by
      rw [List.getLast?_append]
      rfl
    have hcost2 : dn ≤ pathCost m (pre ++ [y]) := by
      rw [pathCost_append]
      have hcy : pathCost m [y] = energyAt m y := by simp [pathCost]
      rw [hcy]
      omega
    by_cases hyv : st2.visited y = true
    · exact ih (pre ++ [y]) l y dn u hsplit2 hvalid hplast2 hyv hdn hcost2 hlast hu
    · refine ⟨pre ++ [y], y, dn, ⟨t2, hsplit2.symm⟩, hplast2, ?_, hdn, hcost2⟩
      exact Bool.not_eq_true _ ▸ hyv

/-- Processing an unvisited, non-last-row popped entry (mark visited, relax
both diagonal neighbors) preserves the loop invariant. -/
lemma Inv_step (m : List (List ℕ)) (rows cols : ℕ) (st : PFState) (e : Entry)
    (rest : List Entry) (hInv : Inv m rows cols st)
    (hsort : List.insertionSort entryLE st.queue = e :: rest)
    (hunvis : st.visited (e.row, e.col) = false)
    (hnotlast : e.row ≠ rows - 1) (h1 : 1 ≤ rows) :
    Inv m rows cols
      (relaxOne m rows cols e.row e.col e.distance
        (relaxOne m rows cols e.row e.col e.distance
          { st with queue := rest, visited := updF st.visited (e.row, e.col) true } (-1)) 1) := by
  set st1 : PFState :=
    { st with queue := rest, visited := updF st.visited (e.row, e.col) true } with hst1
  set st2 := relaxOne m rows cols e.row e.col e.distance
    (relaxOne m rows cols e.row e.col e.distance st1 (-1)) 1 with hst2
  have hdpop : st.distances (e.row, e.col) = some e.distance :=
    popped_distance hInv hsort hunvis
  have hemem : e ∈ st.queue := sort_head_mem hsort
  obtain ⟨hebr, hebc, _⟩ := hInv.entry_ok e hemem
  have hminrest : ∀ x ∈ rest, e.distance ≤ x.distance := sort_head_min hsort
  have hrestmem : ∀ x ∈ rest, x ∈ st.queue := fun x hx =>
    (sort_queue_decomp hsort x).mpr (Or.inr hx)
  have herow1 : e.row + 1 < rows := by omega
  obtain ⟨hvis2, hpw, ⟨news, hq, hnlen, hnews⟩, hpost⟩ :=
    relax2_facts m rows cols e.row e.col e.distance st1
  have hvis1 : ∀ p : Cell, st1.visited p = true ↔ (p = (e.row, e.col) ∨ st.visited p = true) := by
    intro p
    show updF st.visited (e.row, e.col) true p = true ↔ _
    rw [updF]
    by_cases hp : p = (e.row, e.col) <;> simp [hp]
  have hvisited2 : ∀ p : Cell, st2.visited p = true ↔ (p = (e.row, e.col) ∨ st.visited p = true) := by
    intro p
    rw [hvis2]
    exact hvis1 p
  have hd1 : st1.distances = st.distances := rfl
  have hp1 : st1.previous = st.previous := rfl
  have hq1 : st1.queue = rest := rfl
  have HN : ∀ p : Cell, st1.visited p = true → ∃ dp, st.distances p = some dp ∧ dp ≤ e.distance := by
    intro p hp
    rcases (hvis1 p).mp hp with hp | hp
    · exact ⟨e.distance, by rw [hp]; exact hdpop, le_refl _⟩
    · obtain ⟨dp, hdp, hdple⟩ := hInv.visited_le p hp
      exact ⟨dp, hdp, hdple e hemem⟩
  have hfrozen : ∀ p : Cell, st1.visited p = true → st2.distances p = st.distances p := by
    intro p hp
    rcases hpw p with ⟨hd, _⟩ | ⟨_, _, _, _, _, _, himp, _⟩
    · rw [hd, hd1]
    · obtain ⟨dp, hdp, hdple⟩ := HN p hp
      have := himp dp (by rw [hd1]; exact hdp)
      have henn : (0 : ℕ) ≤ energyAt m p := Nat.zero_le _
      omega
  have hfrozenv : st2.distances (e.row, e.col) = some e.distance := by
    rw [hfrozen (e.row, e.col) ((hvis1 _).mpr (Or.inl rfl))]
    exact hdpop
  have hmono : ∀ p d, st.distances p = some d → ∃ d2, st2.distances p = some d2 ∧ d2 ≤ d := by
    intro p d hd
    rcases hpw p with ⟨hdp, _⟩ | ⟨_, _, _, _, hdist, _, himp, _⟩
    · exact ⟨d, by rw [hdp, hd1]; exact hd, le_refl _⟩
    · refine ⟨e.distance + energyAt m p, hdist, ?_⟩
      have := himp d (by rw [hd1]; exact hd)
      omega
  have hq2 : st2.queue = rest ++ news := by
    rw [hq, hq1]
  -- the invariant fields
  have Fachieve : ∀ p d, st2.distances p = some d →
      ∃ l, ValidPath rows cols l ∧ l.getLast? = some p ∧ pathCost m l = d := by
    intro p d hd
    rcases hpw p with ⟨hdp, _⟩ | ⟨hr, hadj, hbr, hbc, hdist, _, _, _⟩
    · rw [hdp, hd1] at hd
      exact hInv.achieve p d hd
    · rw [hdist] at hd
      have hdd : d = e.distance + energyAt m p := (Option.some.inj hd).symm
      obtain ⟨l, hvalid, hlast, hcost⟩ := hInv.achieve (e.row, e.col) e.distance hdpop
      refine ⟨l ++ [p], valid_append_single hvalid hlast ⟨hr, hadj, hbr, hbc⟩, ?_, ?_⟩
      · rw [List.getLast?_append]
        rfl
      · rw [pathCost_append, hcost, hdd]
        simp [pathCost]
  have Fstart : st2.distances (0, cols / 2) = some (energyAt m (0, cols / 2)) := by
    rcases hpw (0, cols / 2) with ⟨hdp, _⟩ | ⟨hr, _, _, _, _, _, _, _⟩
    · rw [hdp, hd1]
      exact hInv.dist_start
    · exact absurd hr (by omega)
  have Fprevnone : ∀ p d, st2.previous p = none → st2.distances p = some d →
      p = (0, cols / 2) := by
    intro p d hprev hd
    rcases hpw p with ⟨hdp, hpp⟩ | ⟨_, _, _, _, _, hprev2, _, _⟩
    · rw [hdp, hd1] at hd
      rw [hpp, hp1] at hprev
      exact hInv.prev_none p d hprev hd
    · rw [hprev2] at hprev
      exact Option.noConfusion hprev
  have Fprevsome : ∀ p q, st2.previous p = some q →
      q.1 + 1 = p.1 ∧ (p.2 = q.2 + 1 ∨ q.2 = p.2 + 1) ∧ p.1 < rows ∧ p.2 < cols ∧
        st2.visited q = true ∧
        ∃ dq, st2.distances q = some dq ∧ st2.distances p = some (dq + energyAt m p) := by
    intro p q hpq
    rcases hpw p with ⟨hdp, hpp⟩ | ⟨hr, hadj, hbr, hbc, hdist, hprev2, _, _⟩
    · rw [hpp, hp1] at hpq
      obtain ⟨ha, hb, hc, hd, hqvis, dq, hdq, hdpe⟩ := hInv.prev_some p q hpq
      refine ⟨ha, hb, hc, hd, (hvisited2 q).mpr (Or.inr hqvis), dq, ?_, ?_⟩
      · rw [hfrozen q ((hvis1 q).mpr (Or.inr hqvis))]
        exact hdq
      · rw [hdp, hd1]
        exact hdpe
    · have hqv : q = (e.row, e.col) := by
        rw [hprev2] at hpq
        exact (Option.some.inj hpq).symm
      subst hqv
      refine ⟨hr.symm, hadj, hbr, hbc, (hvisited2 _).mpr (Or.inl rfl),
        e.distance, hfrozenv, hdist⟩
  have Fentry : ∀ w ∈ st2.queue, w.row < rows ∧ w.col < cols ∧
      ∃ d, st2.distances (w.row, w.col) = some d ∧ d ≤ w.distance := by
    intro w hw
    rw [hq2] at hw
    rcases List.mem_append.mp hw with hw | hw
    · obtain ⟨hbr, hbc, d, hd, hdle⟩ := hInv.entry_ok w (hrestmem w hw)
      obtain ⟨d2, hd2, hd2le⟩ := hmono (w.row, w.col) d hd
      exact ⟨hbr, hbc, d2, hd2, le_trans hd2le hdle⟩
    · obtain ⟨hwr, _, hwbr, hwbc, hwdist, hwval⟩ := hnews w hw
      exact ⟨hwbr, hwbc, w.distance, hwdist, le_refl _⟩
  have Funvis : ∀ p d, st2.visited p = false → st2.distances p = some d →
      ∃ w ∈ st2.queue, w.row = p.1 ∧ w.col = p.2 ∧ w.distance = d := by
    intro p d hv hd
    have hnv : p ≠ (e.row, e.col) ∧ st.visited p = false := by
      have : ¬(p = (e.row, e.col) ∨ st.visited p = true) := by
        intro hcon
        rw [(hvisited2 p).mpr hcon] at hv
        exact Bool.noConfusion hv
      push_neg at this
      exact ⟨this.1, Bool.not_eq_true _ ▸ this.2⟩
    rcases hpw p with ⟨hdp, _⟩ | ⟨_, _, _, _, hdist, _, _, hmem⟩
    · rw [hdp, hd1] at hd
      obtain ⟨w, hw, hwr, hwc, hwd⟩ := hInv.unvisited_entry p d hnv.2 hd
      rcases (sort_queue_decomp hsort w).mp hw with hwe | hwrest
      · exfalso
        rw [hwe] at hwr hwc
        exact hnv.1 (Prod.ext hwr.symm hwc.symm)
      · exact ⟨w, by rw [hq2]; exact List.mem_append_left _ hwrest, hwr, hwc, hwd⟩
    · have hdd : e.distance + energyAt m p = d := by
        rw [hdist] at hd
        exact Option.some.inj hd
      exact ⟨⟨p.1, p.2, e.distance + energyAt m p⟩, hmem, rfl, rfl, hdd⟩
  have Fvisle : ∀ p, st2.visited p = true →
      ∃ d, st2.distances p = some d ∧ ∀ w ∈ st2.queue, d ≤ w.distance := by
    intro p hp
    rcases (hvisited2 p).mp hp with hp | hp
    · subst hp
      refine ⟨e.distance, hfrozenv, ?_⟩
      intro w hw
      rw [hq2] at hw
      rcases List.mem_append.mp hw with hw | hw
      · exact hminrest w hw
      · obtain ⟨_, _, _, _, _, hwval⟩ := hnews w hw
        rw [hwval]
        omega
    · obtain ⟨dp, hdp, hdple⟩ := hInv.visited_le p hp
      refine ⟨dp, by rw [hfrozen p ((hvis1 p).mpr (Or.inr hp))]; exact hdp, ?_⟩
      intro w hw
      rw [hq2] at hw
      rcases List.mem_append.mp hw with hw | hw
      · exact hdple w (hrestmem w hw)
      · obtain ⟨_, _, _, _, _, hwval⟩ := hnews w hw
        have h0 := hdple e hemem
        rw [hwval]
        omega
  have Fvisok : ∀ p, st2.visited p = true → p.1 < rows ∧ p.2 < cols ∧ p.1 ≠ rows - 1 := by
    intro p hp
    rcases (hvisited2 p).mp hp with hp | hp
    · subst hp
      exact ⟨hebr, hebc, hnotlast⟩
    · exact hInv.visited_ok p hp
  have Fvisrel : ∀ p c2, st2.visited p = true → (c2 = p.2 + 1 ∨ p.2 = c2 + 1) →
      p.1 + 1 < rows → c2 < cols →
      ∃ dp dn, st2.distances p = some dp ∧ st2.distances (p.1 + 1, c2) = some dn ∧
        dn ≤ dp + energyAt m (p.1 + 1, c2) := by
    intro p c2 hp hadj hbr hbc
    rcases (hvisited2 p).mp hp with hp | hp
    · subst hp
      obtain ⟨dn, hdn, hdnle⟩ := hpost c2 hadj hbr hbc
      exact ⟨e.distance, dn, hfrozenv, hdn, hdnle⟩
    · obtain ⟨dp, dn, hdp, hdn, hdnle⟩ := hInv.visited_relaxed p c2 hp hadj hbr hbc
      obtain ⟨dn2, hdn2, hdn2le⟩ := hmono (p.1 + 1, c2) dn hdn
      refine ⟨dp, dn2, ?_, hdn2, by omega⟩
      rw [hfrozen p ((hvis1 p).mpr (Or.inr hp))]
      exact hdp
  have Flower : ∀ l p, ValidPath rows cols l → l.getLast? = some p → st2.visited p = false →
      ∃ pre q dq, pre <+: l ∧ pre.getLast? = some q ∧ st2.visited q = false ∧
        st2.distances q = some dq ∧ dq ≤ pathCost m pre := by
    intro l p hl hlast hv
    have hpv : st.visited p = false := by
      have : ¬(p = (e.row, e.col) ∨ st.visited p = true) := by
        intro hcon
        rw [(hvisited2 p).mpr hcon] at hv
        exact Bool.noConfusion hv
      push_neg at this
      exact Bool.not_eq_true _ ▸ this.2
    obtain ⟨pre, q, dq, hpre, hprelast, hqvis, hdq, hdqle⟩ := hInv.lower l p hl hlast hpv
    by_cases hqv : q = (e.row, e.col)
    · subst hqv
      have hdqe : dq = e.distance := by
        rw [hdpop] at hdq
        exact (Option.some.inj hdq).symm
      obtain ⟨t, ht⟩ := hpre
      exact descend_path m rows cols st2 Fvisrel Fvisok h1 t pre l (e.row, e.col) e.distance p
        ht.symm hl hprelast ((hvisited2 _).mpr (Or.inl rfl)) hfrozenv (by rw [← hdqe]; exact hdqle) hlast hv
    · have hq2v : st2.visited q = false := by
        cases hb : st2.visited q with
        | false => rfl
        | true =>
          rcases (hvisited2 q).mp hb with hc | hc
          · exact absurd hc hqv
          · rw [hc] at hqvis
            exact Bool.noConfusion hqvis
      obtain ⟨d2, hd2, hd2le⟩ := hmono q dq hdq
      exact ⟨pre, q, d2, hpre, hprelast, hq2v, hd2, le_trans hd2le hdqle⟩
  exact
    { achieve := Fachieve, dist_start := Fstart, prev_none := Fprevnone,
      prev_some := Fprevsome, entry_ok := Fentry, unvisited_entry := Funvis,
      visited_le := Fvisle, visited_ok := Fvisok, visited_relaxed := Fvisrel,
      lower := Flower }

/-- Discarding a stale popped entry (already-visited cell) preserves the
loop invariant. -/
lemma Inv_stale (m : List (List ℕ)) (rows cols : ℕ) (st : PFState) (e : Entry)
    (rest : List Entry) (hInv : Inv m rows cols st)
    (hsort : List.insertionSort entryLE st.queue = e :: rest)
    (hvis : st.visited (e.row, e.col) = true) :
    Inv m rows cols { st with queue := rest } := by
  have hrestmem : ∀ x ∈ rest, x ∈ st.queue := fun x hx =>
    (sort_queue_decomp hsort x).mpr (Or.inr hx)
  refine
    { achieve := hInv.achieve, dist_start := hInv.dist_start, prev_none := hInv.prev_none,
      prev_some := fun p q hpq => hInv.prev_some p q hpq,
      entry_ok := fun w hw => hInv.entry_ok w (hrestmem w hw),
      unvisited_entry := ?_,
      visited_le := ?_,
      visited_ok := hInv.visited_ok,
      visited_relaxed := hInv.visited_relaxed,
      lower := hInv.lower }
  · intro p d hv hd
    obtain ⟨w, hw, hwr, hwc, hwd⟩ := hInv.unvisited_entry p d hv hd
    rcases (sort_queue_decomp hsort w).mp hw with hwe | hwrest
    · exfalso
      rw [hwe] at hwr hwc
      have hpe : p = (e.row, e.col) := Prod.ext hwr.symm hwc.symm
      rw [hpe, hvis] at hv
      exact Bool.noConfusion hv
    · exact ⟨w, hwrest, hwr, hwc, hwd⟩
  · intro p hp
    obtain ⟨d, hd, hdle⟩ := hInv.visited_le p hp
    exact ⟨d, hd, fun w hw => hdle w (hrestmem w hw)⟩

/-- Any seam returned by the search loop from an invariant-satisfying
state is a valid top-to-bottom path of length `rows` ending in the last
row, and its total energy is at most that of every valid path ending in
the last row. -/
lemma pathfindLoop_sound (m : List (List ℕ)) (rows cols : ℕ) (h1 : 1 ≤ rows) :
    ∀ (fuel : ℕ) (st : PFState) (s : List Cell), Inv m rows cols st →
      pathfindLoop m rows cols fuel st = some s →
      ValidPath rows cols s ∧ s.length = rows ∧
      (∃ c, s.getLast? = some (rows - 1, c)) ∧
      (∀ l2 p2, ValidPath rows cols l2 → l2.getLast? = some p2 → p2.1 = rows - 1 →
        pathCost m s ≤ pathCost m l2) := by
  intro fuel
  induction fuel with
  | zero =>
    intro st s _ hrun
    exact Option.noConfusion hrun
  | succ fuel ih =>
    intro st s hInv hrun
    rw [pathfindLoop] at hrun
    cases hsort : List.insertionSort entryLE st.queue with
    | nil =>
      rw [hsort] at hrun
      exact Option.noConfusion hrun
    | cons e rest =>
      rw [hsort] at hrun
      simp only at hrun
      by_cases hv : st.visited (e.row, e.col) = true
      · rw [if_pos hv] at hrun
        exact ih { st with queue := rest } s (Inv_stale m rows cols st e rest hInv hsort hv) hrun
      · rw [if_neg hv] at hrun
        have hunvis : st.visited (e.row, e.col) = false := Bool.not_eq_true _ ▸ hv
        by_cases hlast : e.row = rows - 1
        · rw [if_pos hlast] at hrun
          have hdpop : st.distances (e.row, e.col) = some e.distance :=
            popped_distance hInv hsort hunvis
          obtain ⟨l, heq, hvalid, hlastl, hcost, hlen⟩ :=
            traceback_spec hInv e.row e.col e.distance [] hdpop
          rw [List.append_nil] at heq
          rw [heq] at hrun
          have hsl : l = s := Option.some.inj hrun
          subst hsl
          refine ⟨hvalid, by omega, ⟨e.col, by rw [hlastl, hlast]⟩, ?_⟩
          intro l2 p2 hval2 hlast2 hp2row
          have hunvis2 : st.visited p2 = false := by
            cases hb : st.visited p2 with
            | false => rfl
            | true =>
              obtain ⟨_, _, hne⟩ := hInv.visited_ok p2 hb
              exact absurd hp2row hne
          obtain ⟨pre, q, dq, hpre, hprel, hqvis, hdq, hdqle⟩ :=
            hInv.lower l2 p2 hval2 hlast2 hunvis2
          obtain ⟨w, hw, hwr, hwc, hwd⟩ := hInv.unvisited_entry q dq hqvis hdq
          have hedq : e.distance ≤ dq := by
            rcases (sort_queue_decomp hsort w).mp hw with hwe | hwrest
            · rw [← hwd, hwe]
            · rw [← hwd]
              exact sort_head_min hsort w hwrest
          calc pathCost m l = e.distance := hcost
            _ ≤ dq := hedq
            _ ≤ pathCost m pre := hdqle
            _ ≤ pathCost m l2 := pathCost_prefix_le m hpre
        · rw [if_neg hlast] at hrun
          exact ih _ s (Inv_step m rows cols st e rest hInv hsort hunvis hlast h1) hrun

lemma pathfind_sound (m : List (List ℕ)) (s : List Cell) (hw : 0 < colsOf m)
    (hs : pathfind m = some s) :
    ValidPath m.length (colsOf m) s ∧ s.length = m.length ∧
    (∃ c, s.getLast? = some (m.length - 1, c)) ∧
    (∀ l2 p2, ValidPath m.length (colsOf m) l2 → l2.getLast? = some p2 →
      p2.1 = m.length - 1 → pathCost m s ≤ pathCost m l2) := by
  rw [pathfind] at hs
  by_cases h0 : m.length = 0
  · rw [if_pos h0] at hs
    exact Option.noConfusion hs
  · rw [if_neg h0] at hs
    exact pathfindLoop_sound m m.length (colsOf m) (by omega) _ _ s
      (Inv_init m m.length (colsOf m) rfl rfl (by omega) hw) hs

/-! ### Claim C1: shape of a returned seam -/

/-- C1: on every non-empty rectangular energy grid (width at least 1) on
which `pathfind` returns a seam, the seam has exactly `H` coordinate
pairs, one per row in increasing row order (the `i`-th pair sits in row
`i`, for rows 0 through `H-1`), and the columns of consecutive rows differ
in absolute value by at most 1. -/
theorem pathfind_seam_shape (m : List (List ℕ)) (s : List Cell)
    (hrect : ∀ row ∈ m, row.length = colsOf m)
    (hw : 0 < colsOf m)
    (hs : pathfind m = some s) :
    s.length = m.length ∧
    (∀ i, i < s.length → (s.getD i (0, 0)).1 = i) ∧
    (∀ i, i + 1 < s.length →
      (((s.getD (i + 1) (0, 0)).2 : ℤ) - ((s.getD i (0, 0)).2 : ℤ)).natAbs ≤ 1) := by
  obtain ⟨hvalid, hlen, _, _⟩ := pathfind_sound m s hw hs
  refine ⟨hlen, ?_, ?_⟩
  · intro i hi
    rw [getD_eq_get s (0, 0) i hi]
    exact valid_rows hvalid i hi
  · intro i hi
    have hstep := List.chain'_iff_get.mp hvalid.2 i (by omega)
    rw [getD_eq_get s (0, 0) (i + 1) hi, getD_eq_get s (0, 0) i (by omega)]
    rcases hstep.2.1 with h | h <;> rw [h] <;> simp

/-- Witness for C1 at a concrete 2-by-3 grid. -/
theorem pathfind_seam_shape_witness :
    ([(0, 1), (1, 0)] : List Cell).length = [[1, 2, 3], [4, 5, 6]].length ∧
    (∀ i, i < ([(0, 1), (1, 0)] : List Cell).length →
      (([(0, 1), (1, 0)] : List Cell).getD i (0, 0)).1 = i) ∧
    (∀ i, i + 1 < ([(0, 1), (1, 0)] : List Cell).length →
      (((([(0, 1), (1, 0)] : List Cell).getD (i + 1) (0, 0)).2 : ℤ)
        - ((([(0, 1), (1, 0)] : List Cell).getD i (0, 0)).2 : ℤ)).natAbs ≤ 1) :=
  pathfind_seam_shape [[1, 2, 3], [4, 5, 6]] [(0, 1), (1, 0)]
    (by decide) (by decide) (by decide)

/-! ### Claim C3: minimality of the returned seam -/

/-- C3: on every non-empty rectangular energy grid (entries are `ℕ`, the
non-negative scores of the data model) on which `pathfind` returns a seam,
the seam's total energy is the least total energy over all top-to-bottom
paths under the code's adjacency: start at `(0, floor(W/2))` and step from
`(row, col)` to `(row+1, col-1)` or `(row+1, col+1)` inside the grid,
ending in the last row. -/
theorem pathfind_minimal (m : List (List ℕ)) (s : List Cell)
    (hrect : ∀ row ∈ m, row.length = colsOf m)
    (hw : 0 < colsOf m)
    (hs : pathfind m = some s) :
    IsLeast {n : ℕ | ∃ l, ValidPath m.length (colsOf m) l ∧
      (∃ p, l.getLast? = some p ∧ p.1 = m.length - 1) ∧ pathCost m l = n}
      (pathCost m s) := by
  obtain ⟨hvalid, hlen, ⟨c, hlast⟩, hmin⟩ := pathfind_sound m s hw hs
  constructor
  · exact ⟨s, hvalid, ⟨(m.length - 1, c), hlast, rfl⟩, rfl⟩
  · rintro n ⟨l, hval2, ⟨p, hp, hp1⟩, rfl⟩
    exact hmin l p hval2 hp hp1

/-- Witness for C3: on a 3-by-3 grid with a cheap corridor the seam's cost
is the least among all admissible top-to-bottom paths. -/
theorem pathfind_minimal_witness :
    IsLeast {n : ℕ | ∃ l, ValidPath [[5, 1, 5], [1, 9, 0], [5, 0, 5]].length
        (colsOf [[5, 1, 5], [1, 9, 0], [5, 0, 5]]) l ∧
      (∃ p, l.getLast? = some p ∧ p.1 = [[5, 1, 5], [1, 9, 0], [5, 0, 5]].length - 1) ∧
      pathCost [[5, 1, 5], [1, 9, 0], [5, 0, 5]] l = n}
      (pathCost [[5, 1, 5], [1, 9, 0], [5, 0, 5]] [(0, 1), (1, 2), (2, 1)]) :=
  pathfind_minimal [[5, 1, 5], [1, 9, 0], [5, 0, 5]] [(0, 1), (1, 2), (2, 1)]
    (by decide) (by decide) (by decide)

/-! ### Claim C4: fixed start cell and strictly diagonal steps -/

/-- C4: on every non-empty rectangular energy grid on which `pathfind`
returns a seam, the seam starts at `(0, floor(W/2))`, the accumulated
distance of that start cell is initialised to the cell's own energy value,
and every step moves to column `col-1` or `col+1` — no two consecutive
seam coordinates share a column. -/
theorem pathfind_start_and_diagonal (m : List (List ℕ)) (s : List Cell)
    (hrect : ∀ row ∈ m, row.length = colsOf m)
    (hw : 0 < colsOf m)
    (hs : pathfind m = some s) :
    s.head? = some (0, colsOf m / 2) ∧
    (pathfindInit m).distances (0, colsOf m / 2) = some (energyAt m (0, colsOf m / 2)) ∧
    (∀ i, i + 1 < s.length →
      ((s.getD (i + 1) (0, 0)).2 = (s.getD i (0, 0)).2 + 1 ∨
        (s.getD i (0, 0)).2 = (s.getD (i + 1) (0, 0)).2 + 1)) := by
  obtain ⟨hvalid, hlen, _, _⟩ := pathfind_sound m s hw hs
  refine ⟨hvalid.1, by simp [pathfindInit, updF], ?_⟩
  intro i hi
  have hstep := List.chain'_iff_get.mp hvalid.2 i (by omega)
  rw [getD_eq_get s (0, 0) (i + 1) hi, getD_eq_get s (0, 0) i (by omega)]
  exact hstep.2.1

/-- Witness for C4 at a concrete 2-by-2 grid. -/
theorem pathfind_start_and_diagonal_witness :
    ([(0, 1), (1, 0)] : List Cell).head? = some (0, colsOf [[7, 7], [7, 7]] / 2) ∧
    (pathfindInit [[7, 7], [7, 7]]).distances (0, colsOf [[7, 7], [7, 7]] / 2)
      = some (energyAt [[7, 7], [7, 7]] (0, colsOf [[7, 7], [7, 7]] / 2)) ∧
    (∀ i, i + 1 < ([(0, 1), (1, 0)] : List Cell).length →
      ((([(0, 1), (1, 0)] : List Cell).getD (i + 1) (0, 0)).2
          = (([(0, 1), (1, 0)] : List Cell).getD i (0, 0)).2 + 1 ∨
        (([(0, 1), (1, 0)] : List Cell).getD i (0, 0)).2
          = (([(0, 1), (1, 0)] : List Cell).getD (i + 1) (0, 0)).2 + 1)) :=
  pathfind_start_and_diagonal [[7, 7], [7, 7]] [(0, 1), (1, 0)]
    (by decide) (by decide) (by decide)

lemma unvisCount_congr (rows cols : ℕ) (st st2 : PFState) (h : st.visited = st2.visited) :
    unvisCount rows cols st = unvisCount rows cols st2 := by
  unfold unvisCount
  rw [h]

lemma unvisCount_mark (rows cols : ℕ) (st : PFState) (v : Cell) (hbr : v.1 < rows)
    (hbc : v.2 < cols) (hv : st.visited v = false) (q2 : List Entry) :
    unvisCount rows cols { st with queue := q2, visited := updF st.visited v true }
      = unvisCount rows cols st - 1 ∧ 1 ≤ unvisCount rows cols st := by
  have hvmem : v ∈ (Finset.range rows ×ˢ Finset.range cols).filter
      (fun p => st.visited p = false) := by
    rw [Finset.mem_filter, Finset.mem_product, Finset.mem_range, Finset.mem_range]
    exact ⟨⟨hbr, hbc⟩, hv⟩
  constructor
  · show ((Finset.range rows ×ˢ Finset.range cols).filter
      (fun p => updF st.visited v true p = false)).card = _
    have hset : (Finset.range rows ×ˢ Finset.range cols).filter
        (fun p => updF st.visited v true p = false)
        = ((Finset.range rows ×ˢ Finset.range cols).filter
            (fun p => st.visited p = false)).erase v := by
      ext p
      rw [Finset.mem_erase, Finset.mem_filter, Finset.mem_filter]
      constructor
      · rintro ⟨hin, hpv⟩
        have hpne : p ≠ v := by
          intro he
          rw [he, updF, if_pos rfl] at hpv
          exact Bool.noConfusion hpv
        rw [updF, if_neg hpne] at hpv
        exact ⟨hpne, hin, hpv⟩
      · rintro ⟨hpne, hin, hpv⟩
        rw [updF, if_neg hpne]
        exact ⟨hin, hpv⟩
    rw [hset, Finset.card_erase_of_mem hvmem]
    rfl
  · exact Finset.card_pos.mpr ⟨v, hvmem⟩

/-- From any visited cell one can walk down relaxed neighbors to some
unvisited in-bounds cell with a finite recorded distance (needs at least
two columns so that every cell has an in-bounds diagonal neighbor). -/
lemma reach_of_visited (m : List (List ℕ)) (rows cols : ℕ) (st : PFState)
    (hInv : Inv m rows cols st) (hc2 : 2 ≤ cols) :
    ∀ k (p : Cell), rows - p.1 ≤ k → st.visited p = true →
    ∃ q d, (q : Cell).1 < rows ∧ q.2 < cols ∧ st.visited q = false ∧
      st.distances q = some d := by
  intro k
  induction k with
  | zero =>
    intro p hk hvp
    obtain ⟨hbr, _, _⟩ := hInv.visited_ok p hvp
    omega
  | succ k ih =>
    intro p hk hvp
    obtain ⟨hbr, hbc, hne⟩ := hInv.visited_ok p hvp
    have hb1 : p.1 + 1 < rows := by omega
    have hadj : ∃ c2, (c2 = p.2 + 1 ∨ p.2 = c2 + 1) ∧ c2 < cols := by
      by_cases hlt : p.2 + 1 < cols
      · exact ⟨p.2 + 1, Or.inl rfl, hlt⟩
      · exact ⟨p.2 - 1, Or.inr (by omega), by omega⟩
    obtain ⟨c2, hc2adj, hc2lt⟩ := hadj
    obtain ⟨dp, dn, _, hdn, _⟩ := hInv.visited_relaxed p c2 hvp hc2adj hb1 hc2lt
    by_cases hv2 : st.visited (p.1 + 1, c2) = true
    · exact ih (p.1 + 1, c2) (by show rows - (p.1 + 1) ≤ k; omega) hv2
    · exact ⟨(p.1 + 1, c2), dn, hb1, hc2lt, Bool.not_eq_true _ ▸ hv2, hdn⟩

/-- With enough fuel, an invariant state that still has an unvisited
in-bounds cell of finite distance always produces a seam. -/
lemma pathfindLoop_total (m : List (List ℕ)) (rows cols : ℕ) (h1 : 1 ≤ rows)
    (hside : 2 ≤ cols ∨ rows = 1) :
    ∀ (fuel : ℕ) (st : PFState), Inv m rows cols st →
      (∃ p d, (p : Cell).1 < rows ∧ p.2 < cols ∧ st.visited p = false ∧
        st.distances p = some d) →
      pfMeasure rows cols st < fuel →
      ∃ s, pathfindLoop m rows cols fuel st = some s := by
  intro fuel
  induction fuel with
  | zero =>
    intro st _ _ hm
    omega
  | succ fuel ih =>
    intro st hInv hreach hm
    obtain ⟨p, d, hbr, hbc, hpv, hpd⟩ := hreach
    obtain ⟨w, hw, hwr, hwc, hwd⟩ := hInv.unvisited_entry p d hpv hpd
    have hqne : st.queue ≠ [] := by
      intro hnil
      rw [hnil] at hw
      exact (List.not_mem_nil w) hw
    cases hsort : List.insertionSort entryLE st.queue with
    | nil =>
      exfalso
      have hl := sort_length (q := st.queue)
      rw [hsort] at hl
      exact hqne (List.length_eq_zero.mp hl.symm)
    | cons e rest =>
      have hql : st.queue.length = rest.length + 1 := by
        have hl := sort_length (q := st.queue)
        rw [hsort] at hl
        simpa using hl.symm
      rw [pathfindLoop, hsort]
      simp only
      by_cases hv : st.visited (e.row, e.col) = true
      · rw [if_pos hv]
        refine ih { st with queue := rest }
          (Inv_stale m rows cols st e rest hInv hsort hv) ⟨p, d, hbr, hbc, hpv, hpd⟩ ?_
        have hcnt : unvisCount rows cols { st with queue := rest } = unvisCount rows cols st :=
          unvisCount_congr rows cols _ st rfl
        show rest.length + 2 * unvisCount rows cols { st with queue := rest } < fuel
        rw [hcnt]
        have := hm
        unfold pfMeasure at this
        omega
      · have hunvis : st.visited (e.row, e.col) = false := Bool.not_eq_true _ ▸ hv
        by_cases hlast : e.row = rows - 1
        · rw [if_neg hv, if_pos hlast]
          exact ⟨_, rfl⟩
        · rw [if_neg hv, if_neg hlast]
          obtain ⟨hebr, hebc, _⟩ := hInv.entry_ok e (sort_head_mem hsort)
          have hc2 : 2 ≤ cols := by
            rcases hside with hc | hr
            · exact hc
            · exfalso
              rw [hr] at hlast hebr
              omega
          have hInv2 := Inv_step m rows cols st e rest hInv hsort hunvis hlast h1
          set st1 : PFState :=
            { st with queue := rest, visited := updF st.visited (e.row, e.col) true } with hst1
          obtain ⟨hvis2, _, ⟨news, hq2, hnlen, _⟩, _⟩ :=
            relax2_facts m rows cols e.row e.col e.distance st1
          have hvisv : (relaxOne m rows cols e.row e.col e.distance
              (relaxOne m rows cols e.row e.col e.distance st1 (-1)) 1).visited
              (e.row, e.col) = true := by
            rw [hvis2]
            show updF st.visited (e.row, e.col) true (e.row, e.col) = true
            rw [updF, if_pos rfl]
          refine ih _ hInv2 ?_ ?_
          · exact reach_of_visited m rows cols _ hInv2 hc2 rows (e.row, e.col)
              (by omega) hvisv
          · obtain ⟨hcnt1, hcnt2⟩ :=
              unvisCount_mark rows cols st (e.row, e.col) hebr hebc hunvis rest
            have hcnt3 : unvisCount rows cols
                (relaxOne m rows cols e.row e.col e.distance
                  (relaxOne m rows cols e.row e.col e.distance st1 (-1)) 1)
                = unvisCount rows cols st1 :=
              unvisCount_congr rows cols _ st1 hvis2
            show (relaxOne m rows cols e.row e.col e.distance
              (relaxOne m rows cols e.row e.col e.distance st1 (-1)) 1).queue.length
                + 2 * _ < fuel
            rw [hq2, hcnt3]
            have hq1len : st1.queue = rest := rfl
            rw [List.length_append, hq1len]
            have hm2 := hm
            unfold pfMeasure at hm2
            rw [hcnt1]
            omega

/-- For a non-empty grid with at least two columns — or a single-row grid —
`pathfind` always returns a seam. -/
lemma pathfind_total (m : List (List ℕ)) (h0 : 0 < m.length) (hw : 0 < colsOf m)
    (hside : 2 ≤ colsOf m ∨ m.length = 1) : ∃ s, pathfind m = some s := by
  rw [pathfind, if_neg (by omega)]
  have hmid : colsOf m / 2 < colsOf m := Nat.div_lt_self (by omega) (by omega)
  refine pathfindLoop_total m m.length (colsOf m) (by omega) hside _ (pathfindInit m)
    (Inv_init m m.length (colsOf m) rfl rfl (by omega) hw) ?_ ?_
  · refine ⟨(0, colsOf m / 2), energyAt m (0, colsOf m / 2), by omega, hmid, rfl, ?_⟩
    show updF (fun _ => none) (0, colsOf m / 2) (some (energyAt m (0, colsOf m / 2)))
      (0, colsOf m / 2) = _
    rw [updF, if_pos rfl]
  · have hcnt : unvisCount m.length (colsOf m) (pathfindInit m) = m.length * colsOf m := by
      unfold unvisCount
      have hall : ∀ x ∈ Finset.range m.length ×ˢ Finset.range (colsOf m),
          (pathfindInit m).visited x = false := fun x _ => rfl
      rw [Finset.filter_true_of_mem hall, Finset.card_product, Finset.card_range,
        Finset.card_range]
    show (pathfindInit m).queue.length + 2 * unvisCount m.length (colsOf m) (pathfindInit m)
      < 2 + 2 * (m.length * colsOf m)
    rw [hcnt]
    show 1 + 2 * (m.length * colsOf m) < 2 + 2 * (m.length * colsOf m)
    omega

/-! ### Claim C6: when pathfind returns a seam -/

/-- Counterexample to C6 as stated: the well-formed non-empty 2-row,
1-column grid has no admissible move (straight-down is never explored and
both diagonals leave the grid), so the frontier empties and `pathfind`
returns no seam. -/
theorem pathfind_single_column_counterexample :
    pathfind [[0], [0]] = none ∧ [[0], [0]].length = 2 ∧ colsOf [[0], [0]] = 1 :=
  ⟨by decide, rfl, rfl⟩

/-- C6 amended: for every well-formed non-empty rectangular energy grid
with at least two columns — or with a single row — the frontier never
empties before a last-row cell is popped and `pathfind` returns a seam;
with exactly one column and two or more rows the frontier does empty and
no seam is returned (see the counterexample). -/
theorem pathfind_returns_seam (m : List (List ℕ))
    (hrect : ∀ row ∈ m, row.length = colsOf m)
    (h0 : 0 < m.length) (hw : 0 < colsOf m)
    (hside : 2 ≤ colsOf m ∨ m.length = 1) :
    ∃ s, pathfind m = some s :=
  pathfind_total m h0 hw hside

/-- Witness for the amended C6 at a concrete 2-by-2 grid. -/
theorem pathfind_returns_seam_witness : ∃ s, pathfind [[1, 2], [3, 4]] = some s :=
  pathfind_returns_seam [[1, 2], [3, 4]] (by decide) (by decide) (by decide) (by decide)

/-! ### One full successful carve step (helper for C5) -/

lemma colsOf_getEnergyMatrix (s : List ℕ) (W H : ℕ) (hH : 1 ≤ H) :
    colsOf (getEnergyMatrix s W H) = W := by
  obtain ⟨h, rfl⟩ : ∃ h, H = h + 1 := ⟨H - 1, by omega⟩
  unfold colsOf getEnergyMatrix
  rw [List.range_succ_eq_map, List.map_cons]
  simp

/-- A carve step on a well-formed image with at least two columns (or a
single row) succeeds and produces a well-formed image one pixel narrower. -/
lemma carveSeam_step (sobel : Image → List ℕ) (img : Image)
    (hW2 : 2 ≤ img.width ∨ img.height = 1) (hW : 1 ≤ img.width) (hH : 1 ≤ img.height)
    (hdata : img.data.length = img.width * img.height * 4) :
    ∃ out, carveSeam sobel img = some out ∧ out.width = img.width - 1 ∧
      out.height = img.height ∧ out.data.length = (img.width - 1) * img.height * 4 := by
  set emx := getEnergyMatrix (sobel img) img.width img.height with hemx
  have hrows : emx.length = img.height := getEnergyMatrix_length _ _ _
  have hcols : colsOf emx = img.width := colsOf_getEnergyMatrix _ _ _ hH
  obtain ⟨seam, hpf⟩ := pathfind_total emx (by omega) (by omega) (by rw [hcols]; omega)
  obtain ⟨hvalid, hlen, _, _⟩ := pathfind_sound emx seam (by omega) hpf
  have hlenH : seam.length = img.height := by rw [hlen, hrows]
  have hrows2 : ∀ i (hi : i < seam.length), (seam.get ⟨i, hi⟩).1 = 0 + i := by
    intro i hi
    rw [valid_rows hvalid i hi]
    omega
  have hcols2 : ∀ p ∈ seam, p.2 < img.width := by
    intro p hp
    rw [← hcols]
    exact valid_cols hvalid (by omega) p hp
  obtain ⟨hEq, hLen⟩ :=
    carveLoopData_spec img.width img.height hW img.data hdata seam 0 hrows2 hcols2
      (by omega)
  have hsub : img.data.length - 4 * seam.length = (img.width - 1) * img.height * 4 := by
    rw [hdata, hlenH]
    obtain ⟨w, hw2⟩ : ∃ w, img.width = w + 1 := ⟨img.width - 1, by omega⟩
    rw [hw2]
    have hx : (w + 1) * img.height * 4 = w * img.height * 4 + 4 * img.height := by ring
    simp only [Nat.add_sub_cancel]
    omega
  refine ⟨⟨carveLoopData img.width seam img.data, img.width - 1, img.height⟩, ?_, rfl, rfl, ?_⟩
  · simp only [carveSeam, ← hemx, hpf]
  · rw [hLen, hsub]

lemma carveSpecCount_le (W : ℕ) (amount : ℚ) : carveSpecCount W amount ≤ W := by
  refine Nat.find_le ?_
  show ((W - W : ℕ) : ℚ) * (amount / 100) ≤ (W : ℚ)
  rw [Nat.sub_self]
  push_cast
  simp

lemma width_big_of_lt_count (W0 : ℕ) (amount : ℚ) (i : ℕ) (hW0 : 2 ≤ W0)
    (ha100 : amount ≤ 100) (hi : i < carveSpecCount W0 amount) :
    2 ≤ W0 - i ∨ i = 0 := by
  have hnot : ¬carveCountProp W0 amount i := Nat.find_min _ hi
  unfold carveCountProp at hnot
  push_neg at hnot
  rcases Nat.eq_zero_or_pos i with hz | hpos
  · exact Or.inr hz
  · left
    have hle1 : amount / 100 ≤ 1 := by
      rw [div_le_one (by norm_num)]
      exact ha100
    have hub : ((W0 - i : ℕ) : ℚ) * (amount / 100) ≤ ((W0 - i : ℕ) : ℚ) := by
      refine mul_le_of_le_one_right ?_ hle1
      positivity
    have hiq : (i : ℚ) < ((W0 - i : ℕ) : ℚ) := lt_of_lt_of_le hnot hub
    have hin : i < W0 - i := by exact_mod_cast hiq
    omega

/-- The carve loop, run from counter `i` on a well-formed image of width
`W0 - i`, performs in total exactly `carveSpecCount W0 amount` single-seam
steps and returns the correspondingly narrowed image. -/
lemma carveAux_spec (sobel : Image → List ℕ) (amount : ℚ)
    (ha100 : amount ≤ 100) (W0 : ℕ) (hW0 : 2 ≤ W0) (H : ℕ) (hH : 1 ≤ H) :
    ∀ (fuel i : ℕ) (img : Image), img.width = W0 - i → img.height = H →
      img.data.length = img.width * img.height * 4 →
      i ≤ carveSpecCount W0 amount →
      carveSpecCount W0 amount - i < fuel →
      ∃ out, carveAux sobel amount fuel i img = some (out, carveSpecCount W0 amount) ∧
        out.width = W0 - carveSpecCount W0 amount ∧ out.height = H ∧
        out.data.length = out.width * out.height * 4 := by
  intro fuel
  induction fuel with
  | zero =>
    intro i img _ _ _ _ hfuel
    omega
  | succ fuel ih =>
    intro i img hwidth hheight hdata hile hfuel
    by_cases hiN : i = carveSpecCount W0 amount
    · subst hiN
      have hprop : carveCountProp W0 amount (carveSpecCount W0 amount) :=
        Nat.find_spec (carveCountProp_exists W0 amount)
      unfold carveCountProp at hprop
      rw [carveAux, hwidth, if_neg (not_lt.mpr hprop)]
      exact ⟨img, rfl, hwidth, hheight, by rw [hdata, hwidth, hheight]⟩
    · have hlt : i < carveSpecCount W0 amount := by omega
      have hcond : (i : ℚ) < ((W0 - i : ℕ) : ℚ) * (amount / 100) := by
        have hnot : ¬carveCountProp W0 amount i := Nat.find_min _ hlt
        unfold carveCountProp at hnot
        push_neg at hnot
        exact hnot
      have hw2 : 2 ≤ img.width := by
        rcases width_big_of_lt_count W0 amount i hW0 ha100 hlt with hbig | hzero
        · omega
        · subst hzero
          omega
      obtain ⟨out1, hstep, hw1, hh1, hd1⟩ :=
        carveSeam_step sobel img (Or.inl hw2) (by omega) (by omega) hdata
      rw [carveAux, hwidth, if_pos hcond, hstep]
      refine ih (i + 1) out1 ?_ ?_ ?_ ?_ ?_
      · rw [hw1, hwidth]
        omega
      · rw [hh1, hheight]
      · rw [hd1, hw1, hh1]
      · omega
      · omega

/-! ### Claim C5: the carve loop count -/

lemma carveSpecCount_ten : carveSpecCount 10 100 = 5 := by
  unfold carveSpecCount
  rw [Nat.find_eq_iff]
  constructor
  · show ((10 - 5 : ℕ) : ℚ) * ((100 : ℚ) / 100) ≤ (5 : ℚ)
    norm_num
  · intro n hn
    interval_cases n <;>
      · show ¬((_ : ℚ) * ((100 : ℚ) / 100) ≤ _)
        push_neg
        norm_num

/-- Counterexample to C5 as stated: with a 10-by-1 image and a requested
reduction of 100 percent, the claim predicts exactly
`min (floor(10 * (100/100))) (10 - 1) = min 10 9 = 9` single-seam
invocations, but the loop performs only 5 — because `carveSeam` mutates
the very image object whose `width` the loop bound reads, the bound
shrinks while the counter grows. -/
theorem carve_count_counterexample :
    (∃ out, carve (fun im => List.replicate (im.width * im.height * 4) 1) 100
      ⟨List.replicate 40 0, 10, 1⟩ = some (out, 5)) ∧
    (5 : ℕ) ≠ min (10 * 100 / 100) (10 - 1) := by
  constructor
  · obtain ⟨out, hout, _⟩ :=
      carveAux_spec (fun im => List.replicate (im.width * im.height * 4) 1) 100
        (by norm_num) 10 (by norm_num) 1 (by norm_num) 11 0
        ⟨List.replicate 40 0, 10, 1⟩ rfl rfl (by decide)
        (by omega) (by rw [carveSpecCount_ten]; omega)
    rw [carveSpecCount_ten] at hout
    exact ⟨out, hout⟩
  · decide

/-- C5 corrected: `result` aliases `image`, and `carveSeam` mutates that
object in place, so the loop bound `image.width * (amount/100)` is
re-evaluated against the current, shrinking width.  For a well-formed
image of width `W ≥ 2` and a reduction `0 ≤ amount ≤ 100`, the loop feeds
each step's output into the next and invokes `carveSeam` exactly
`carveSpecCount W amount` times — the least `n` with
`(W - n)·(amount/100) ≤ n`, i.e. `ceil(W·a/(100+a))` under exact
arithmetic — not `floor(W·amount/100)`, and with no clamp to `W - 1`. -/
theorem carve_count_formula (sobel : Image → List ℕ) (amount : ℚ) (img : Image)
    (hsobel : ∀ im : Image, (sobel im).length = im.width * im.height * 4)
    (ha0 : 0 ≤ amount) (ha100 : amount ≤ 100)
    (hW : 2 ≤ img.width) (hH : 1 ≤ img.height)
    (hdata : img.data.length = img.width * img.height * 4) :
    ∃ out, carve sobel amount img = some (out, carveSpecCount img.width amount) ∧
      out.width = img.width - carveSpecCount img.width amount ∧
      out.height = img.height ∧
      out.data.length = out.width * out.height * 4 := by
  have hle := carveSpecCount_le img.width amount
  exact carveAux_spec sobel amount ha100 img.width hW img.height hH (img.width + 1) 0 img
    (by omega) rfl hdata (by omega) (by omega)

/-- Witness for the corrected C5 at the concrete 10-by-1 image. -/
theorem carve_count_formula_witness :
    ∃ out, carve (fun im => List.replicate (im.width * im.height * 4) 1) 100
        ⟨List.replicate 40 0, 10, 1⟩ = some (out, carveSpecCount 10 100) ∧
      out.width = 10 - carveSpecCount 10 100 ∧
      out.height = 1 ∧
      out.data.length = out.width * out.height * 4 :=
  carve_count_formula (fun im => List.replicate (im.width * im.height * 4) 1) 100
    ⟨List.replicate 40 0, 10, 1⟩ (fun im => by simp) (by norm_num) (by norm_num)
    (by decide) (by decide) (by decide)

end Croppy
